import Mathlib

/-!
Verification of the meshoptimizer vertex cache optimization core
(vcacheoptimizer translation unit of the repository).

The development shallowly embeds the translation unit that defines
`buildAdjacency`, `getNextVertexDeadEnd`, `getNextVertexNeighbour`,
`vertexScore`, `getNextTriangleDeadEnd`, `meshopt_optimizeVertexCache` and
`meshopt_optimizeVertexCacheFifo`.

Modelling conventions:
  - C arrays become total functions `Nat → _` updated with `Function.update`,
    or Lean lists where the array is used as a growing stack or output buffer.
  - The float score tables hold constants with exactly three decimal digits,
    and the only float operations the source performs on scores are addition,
    subtraction and comparison.  Scores are therefore represented exactly as
    integers counted in thousandths, an order-preserving exact model of the
    rational values of the table constants.
  - The sentinel value `~0u` (not found) becomes `Option.none`.
  - Loops become structural recursion, or recursion on explicit fuel for the
    two main emission loops; the proofs show the fuel given by the top level
    functions is never exhausted.
  - Unsigned arithmetic on timestamps and counters never underflows or
    overflows along reachable states (the proofs track the needed facts), so
    `Nat` subtraction coincides with the unsigned subtraction of the source.
-/

namespace MeshoptVC

/-- Source line 14: maximum cache size of the table-driven optimizer. -/
def max_cache_size : Nat := 16

/-- Source line 15: maximum valence used to clamp live triangle counts. -/
def max_valence : Nat := 8

/-- Source lines 17-19: cache position score table, 1 + 16 entries.  The float
constants are stored exactly, scaled by 1000 (0.792f becomes 792, etc.). -/
def vertex_score_table_cache : List ℤ :=
  [0,
   792, 767, 764, 956, 827, 751, 820, 864, 738, 788, 642, 646, 165, 654, 545, 284]

/-- Source lines 21-23: live triangle count score table, 1 + 8 entries, scaled
by 1000 exactly like the cache table. -/
def vertex_score_table_live : List ℤ :=
  [0,
   994, 721, 479, 423, 174, 80, 249, 56]

/-- Reading of `indices[n]`.  Every access performed by the verified runs is
shown to be in bounds, so the default value never surfaces. -/
def idxAt (indices : List Nat) (n : Nat) : Nat := indices.getD n 0

/-- Source lines 140-147: vertex score from cache position (-1 when not in
cache) and live triangle count, with the live count clamped at `max_valence`. -/
def vertexScore (cache_position : ℤ) (live_triangles : Nat) : ℤ :=
  let live_triangles_clamped :=
    if live_triangles < max_valence then live_triangles else max_valence
  vertex_score_table_cache.getD (1 + cache_position).toNat 0 +
    vertex_score_table_live.getD live_triangles_clamped 0

/-! ## Adjacency builder (source lines 25-84)

The `Adjacency` struct holds `triangle_counts`, `offsets` and flat `data`.
`buildAdjacency` fills the counts with one pass over the indices, turns them
into prefix-sum offsets, scatters each face index into the slices of its three
vertices, and finally restores the offsets.  The consumers only ever read the
slice `data[offsets[v] .. offsets[v] + triangle_counts[v])`, which is extracted
below as `adjacencyAt`. -/

/-- Source lines 44-54: the triangle count of a vertex after the counting pass,
one increment per occurrence of the vertex in the index buffer. -/
def triangleCounts (indices : List Nat) : Nat → Nat :=
  indices.foldl (fun counts i => Function.update counts i (counts i + 1)) (fun _ => 0)

/-- Source lines 57-63: running prefix sum giving the offset of the slice of
each vertex in the flat adjacency data. -/
def adjacencyOffsets (counts : Nat → Nat) : Nat → Nat
  | 0 => 0
  | v + 1 => adjacencyOffsets counts v + counts v

/-- State of the scatter pass of `buildAdjacency`: the moving offsets and the
flat data cells (`none` marks a cell that has not been written yet). -/
structure ScatterState where
  offsets : Nat → Nat
  data : Nat → Option Nat

/-- Source lines 72-74, one assignment: write face `i` at the moving offset of
vertex `v` and advance that offset. -/
def pushTriangle (s : ScatterState) (v i : Nat) : ScatterState :=
  { offsets := Function.update s.offsets v (s.offsets v + 1),
    data := Function.update s.data (s.offsets v) (some i) }

/-- Source lines 68-75, one iteration: scatter face `i` into the slices of its
three vertices, in a, b, c order. -/
def scatterFace (indices : List Nat) (s : ScatterState) (i : Nat) : ScatterState :=
  let s1 := pushTriangle s (idxAt indices (3 * i)) i
  let s2 := pushTriangle s1 (idxAt indices (3 * i + 1)) i
  pushTriangle s2 (idxAt indices (3 * i + 2)) i

/-- Source lines 39-84: the completed scatter over all faces, starting from the
prefix-sum offsets and an unwritten data array. -/
def buildAdjacencyScatter (indices : List Nat) : ScatterState :=
  (List.range (indices.length / 3)).foldl (scatterFace indices)
    { offsets := adjacencyOffsets (triangleCounts indices), data := fun _ => none }

/-- The slice of the flat adjacency data belonging to vertex `v`, as read by
both optimizers after the final pass of `buildAdjacency` restored the offsets
(source lines 78-83): `triangle_counts[v]` cells starting at the restored
offset of `v`. -/
def adjacencyAt (indices : List Nat) (v : Nat) : List Nat :=
  (List.range (triangleCounts indices v)).map
    (fun j =>
      ((buildAdjacencyScatter indices).data
        (adjacencyOffsets (triangleCounts indices) v + j)).getD 0)

/-- Multiplicity of vertex `v` in face `i` of the index buffer (0 to 3). -/
def triMult (indices : List Nat) (v i : Nat) : Nat :=
  [idxAt indices (3 * i), idxAt indices (3 * i + 1), idxAt indices (3 * i + 2)].count v

/-- Functional description of the slice the scatter builds for vertex `v` after
the first `k` faces: the face indices incident to `v`, in face order, one copy
per occurrence of `v` in the face. -/
def segAt (indices : List Nat) (k : Nat) (v : Nat) : List Nat :=
  (List.range k).flatMap (fun i => List.replicate (triMult indices v i) i)

/-- Functional description of the complete adjacency slice of vertex `v`. -/
def incidentList (indices : List Nat) (v : Nat) : List Nat :=
  segAt indices (indices.length / 3) v

/-! ### Counting sort correctness -/

theorem countsFold_eq (l : List Nat) (c : Nat → Nat) (v : Nat) :
    (l.foldl (fun counts i => Function.update counts i (counts i + 1)) c) v
      = c v + l.count v := by
  induction l generalizing c with
  | nil => simp
  | cons a t ih =>
    rw [List.foldl_cons, ih]
    by_cases h : v = a
    · subst h
      rw [List.count_cons_self, Function.update_same]
      omega
    · rw [List.count_cons_of_ne h, Function.update_noteq h]

theorem triangleCounts_eq (indices : List Nat) (v : Nat) :
    triangleCounts indices v = indices.count v := by
  simpa using countsFold_eq indices (fun _ => 0) v

theorem adjacencyOffsets_succ (c : Nat → Nat) (v : Nat) :
    adjacencyOffsets c (v + 1) = adjacencyOffsets c v + c v := rfl

theorem adjacencyOffsets_le (c : Nat → Nat) {v w : Nat} (h : v ≤ w) :
    adjacencyOffsets c v ≤ adjacencyOffsets c w := by
  induction w with
  | zero =>
    have hv : v = 0 := by omega
    subst hv; exact le_rfl
  | succ w ih =>
    rcases Nat.lt_or_ge v (w + 1) with hlt | hge
    · calc adjacencyOffsets c v ≤ adjacencyOffsets c w := ih (by omega)
        _ ≤ adjacencyOffsets c w + c w := Nat.le_add_right _ _
        _ = adjacencyOffsets c (w + 1) := (adjacencyOffsets_succ c w).symm
    · have hv : v = w + 1 := by omega
      subst hv; exact le_rfl

theorem adjacencyOffsets_add_le (c : Nat → Nat) {v w : Nat} (h : v < w) :
    adjacencyOffsets c v + c v ≤ adjacencyOffsets c w := by
  have h1 : adjacencyOffsets c (v + 1) ≤ adjacencyOffsets c w := adjacencyOffsets_le c h
  have h2 := adjacencyOffsets_succ c v
  omega

/-- Invariant of the scatter pass: `seg v` is the list of faces already written
into the slice of vertex `v`; the moving offsets have advanced past those
cells, and the cells hold those faces in order. -/
structure ScatterInv (counts : Nat → Nat) (seg : Nat → List Nat) (s : ScatterState) : Prop where
  len_le : ∀ v, (seg v).length ≤ counts v
  off : ∀ v, s.offsets v = adjacencyOffsets counts v + (seg v).length
  dat : ∀ v j, (h : j < (seg v).length) →
    s.data (adjacencyOffsets counts v + j) = some ((seg v)[j])

theorem ScatterInv.push {counts : Nat → Nat} {seg : Nat → List Nat} {s : ScatterState}
    (hinv : ScatterInv counts seg s) (v i : Nat) (hlt : (seg v).length < counts v) :
    ScatterInv counts (Function.update seg v (seg v ++ [i])) (pushTriangle s v i) := by
  refine ⟨?_, ?_, ?_⟩
  · intro w
    by_cases h : w = v
    · subst h
      rw [Function.update_same, List.length_append]
      simpa using hlt
    · rw [Function.update_noteq h]; exact hinv.len_le w
  · intro w
    by_cases h : w = v
    · subst h
      show Function.update s.offsets w (s.offsets w + 1) w
        = adjacencyOffsets counts w + (Function.update seg w (seg w ++ [i]) w).length
      rw [Function.update_same, Function.update_same, List.length_append, hinv.off w]
      simp; omega
    · show Function.update s.offsets v (s.offsets v + 1) w
        = adjacencyOffsets counts w + (Function.update seg v (seg v ++ [i]) w).length
      rw [Function.update_noteq h, Function.update_noteq h]
      exact hinv.off w
  · intro w j hj
    by_cases h : w = v
    · subst h
      rw [Function.update_same] at hj
      show Function.update s.data (s.offsets w) (some i) (adjacencyOffsets counts w + j)
        = some ((Function.update seg w (seg w ++ [i]) w)[j])
      simp only [Function.update_same]
      rcases Nat.lt_or_ge j (seg w).length with hlt2 | hge2
      · have hdat := hinv.dat w j hlt2
        have hne : adjacencyOffsets counts w + j ≠ s.offsets w := by
          rw [hinv.off w]; omega
        rw [Function.update_noteq hne, hdat]
        congr 1
        exact (List.getElem_append_left hlt2).symm
      · have hj2 : j = (seg w).length := by
          rw [List.length_append] at hj
          simp at hj
          omega
        subst hj2
        have heq : adjacencyOffsets counts w + (seg w).length = s.offsets w :=
          (hinv.off w).symm
        rw [heq, Function.update_same]
        congr 1
        exact (List.getElem_concat_length _ _ _ rfl _).symm
    · -- a cell of another vertex: disjointness of the slices
      rw [Function.update_noteq h] at hj
      show Function.update s.data (s.offsets v) (some i) (adjacencyOffsets counts w + j)
        = some ((Function.update seg v (seg v ++ [i]) w)[j])
      have hdat := hinv.dat w j hj
      have hne : adjacencyOffsets counts w + j ≠ s.offsets v := by
        rw [hinv.off v]
        have hjw : j < counts w := lt_of_lt_of_le hj (hinv.len_le w)
        rcases Nat.lt_or_ge w v with hc | hc
        · have := adjacencyOffsets_add_le counts hc
          omega
        · have hc2 : v < w := by omega
          have := adjacencyOffsets_add_le counts hc2
          omega
      rw [Function.update_noteq hne, hdat]
      congr 1
      have : Function.update seg v (seg v ++ [i]) w = seg w := Function.update_noteq h _ _
      simp only [this]

theorem count_triple (x a b c : Nat) :
    ([a, b, c] : List Nat).count x
      = (if x = a then 1 else 0) + ((if x = b then 1 else 0) + (if x = c then 1 else 0)) := by
  simp [List.count_cons]
  split_ifs <;> omega

theorem segAt_zero (indices : List Nat) (v : Nat) : segAt indices 0 v = [] := rfl

theorem segAt_succ (indices : List Nat) (k v : Nat) :
    segAt indices (k + 1) v = segAt indices k v ++ List.replicate (triMult indices v k) k := by
  simp [segAt, List.range_succ]

theorem segAt_length (indices : List Nat) (v : Nat) :
    ∀ k, 3 * k ≤ indices.length →
      (segAt indices k v).length = (indices.take (3 * k)).count v := by
  intro k
  induction k with
  | zero => simp [segAt_zero]
  | succ k ih =>
    intro hk
    have hk3 : 3 * k ≤ indices.length := by omega
    have h0 : 3 * k < indices.length := by omega
    have h1 : 3 * k + 1 < indices.length := by omega
    have h2 : 3 * k + 2 < indices.length := by omega
    have htake : indices.take (3 * (k + 1))
        = indices.take (3 * k) ++ [indices[3 * k], indices[3 * k + 1], indices[3 * k + 2]] := by
      have e1 : 3 * (k + 1) = 3 * k + 3 := by ring
      rw [e1, List.take_add]
      congr 1
      rw [List.drop_eq_getElem_cons h0, List.drop_eq_getElem_cons h1]
      have e4 : 3 * k + 1 + 1 = 3 * k + 2 := by omega
      simp only [e4]
      rw [List.drop_eq_getElem_cons h2]
      rfl
    rw [segAt_succ, htake, List.count_append, List.length_append, ih hk3,
      List.length_replicate]
    congr 1
    show triMult indices v k
      = List.count v [indices[3 * k], indices[3 * k + 1], indices[3 * k + 2]]
    unfold triMult idxAt
    rw [List.getD_eq_getElem _ _ h0, List.getD_eq_getElem _ _ h1, List.getD_eq_getElem _ _ h2]

theorem segAt_length_le (indices : List Nat) {v k : Nat}
    (hk : 3 * k ≤ indices.length) :
    (segAt indices k v).length ≤ triangleCounts indices v := by
  rw [triangleCounts_eq, segAt_length indices v k hk]
  exact List.Sublist.count_le (List.take_sublist _ _) v

theorem update_seg_len (seg : Nat → List Nat) (a k x : Nat) :
    (Function.update seg a (seg a ++ [k]) x).length
      = (seg x).length + (if x = a then 1 else 0) := by
  by_cases h : x = a
  · subst h
    rw [Function.update_same, List.length_append, if_pos rfl]
    rfl
  · rw [Function.update_noteq h, if_neg h]
    omega

theorem update2_seg_len (seg : Nat → List Nat) (a b k x : Nat) :
    (Function.update (Function.update seg a (seg a ++ [k])) b
        (Function.update seg a (seg a ++ [k]) b ++ [k]) x).length
      = (seg x).length + ((if x = a then 1 else 0) + (if x = b then 1 else 0)) := by
  by_cases h : x = b
  · rw [Function.update_apply, if_pos h, List.length_append, update_seg_len, h, if_pos rfl]
    by_cases h2 : b = a <;> simp [h2]
  · rw [Function.update_noteq h, update_seg_len, if_neg h]
    omega

/-- Applying the three slice extensions of one scattered face at any point. -/
theorem update3_apply (seg : Nat → List Nat) (a b c k v : Nat) :
    (Function.update (Function.update (Function.update seg a (seg a ++ [k])) b
        (Function.update seg a (seg a ++ [k]) b ++ [k])) c
        (Function.update (Function.update seg a (seg a ++ [k])) b
          (Function.update seg a (seg a ++ [k]) b ++ [k]) c ++ [k])) v
      = seg v ++ List.replicate
          ((if v = a then 1 else 0) + ((if v = b then 1 else 0) + (if v = c then 1 else 0))) k := by
  by_cases h1 : v = a <;> by_cases h2 : v = b <;> by_cases h3 : v = c <;>
    simp_all [Function.update_apply, List.replicate_succ, List.append_assoc]

/-- The scatter pass of `buildAdjacency` computed over the first `k` faces
satisfies the slice invariant with the functional slice description `segAt`. -/
theorem scatter_partial_inv (indices : List Nat) (h3 : 3 ∣ indices.length) :
    ∀ k, k ≤ indices.length / 3 →
      ScatterInv (triangleCounts indices) (segAt indices k)
        ((List.range k).foldl (scatterFace indices)
          { offsets := adjacencyOffsets (triangleCounts indices), data := fun _ => none }) := by
  have hlen : 3 * (indices.length / 3) = indices.length := Nat.mul_div_cancel' h3
  intro k
  induction k with
  | zero =>
    intro _
    exact ⟨fun v => by simp [segAt_zero], fun v => by simp [segAt_zero],
      fun v j h => by simp [segAt_zero] at h⟩
  | succ k ih =>
    intro hk
    have hk3 : 3 * (k + 1) ≤ indices.length := by omega
    have hinv := ih (by omega)
    rw [List.range_succ, List.foldl_append, List.foldl_cons, List.foldl_nil]
    set s := (List.range k).foldl (scatterFace indices)
      { offsets := adjacencyOffsets (triangleCounts indices), data := fun _ => none } with hs
    set a := idxAt indices (3 * k) with ha
    set b := idxAt indices (3 * k + 1) with hb
    set c := idxAt indices (3 * k + 2) with hc
    -- length bounds for the three pushes
    have hbound : ∀ v, (segAt indices (k + 1) v).length ≤ triangleCounts indices v :=
      fun v => segAt_length_le indices hk3
    have hsucc : ∀ v, (segAt indices (k + 1) v).length
        = (segAt indices k v).length + triMult indices v k := by
      intro v; rw [segAt_succ]; simp
    have htm : ∀ v, triMult indices v k
        = (if v = a then 1 else 0) + ((if v = b then 1 else 0) + (if v = c then 1 else 0)) := by
      intro v
      show ([a, b, c] : List Nat).count v = _
      exact count_triple v a b c
    have p1 : ScatterInv (triangleCounts indices)
        (Function.update (segAt indices k) a (segAt indices k a ++ [k]))
        (pushTriangle s a k) := by
      apply hinv.push
      have e1 := hbound a; have e2 := hsucc a; have e3 := htm a
      rw [if_pos rfl] at e3
      omega
    have p2 : ScatterInv (triangleCounts indices)
        (Function.update (Function.update (segAt indices k) a (segAt indices k a ++ [k])) b
          (Function.update (segAt indices k) a (segAt indices k a ++ [k]) b ++ [k]))
        (pushTriangle (pushTriangle s a k) b k) := by
      apply p1.push
      have e1 := hbound b; have e2 := hsucc b; have e3 := htm b
      rw [if_pos rfl] at e3
      rw [update_seg_len]
      omega
    have p3 : ScatterInv (triangleCounts indices)
        (Function.update (Function.update (Function.update (segAt indices k) a
            (segAt indices k a ++ [k])) b
            (Function.update (segAt indices k) a (segAt indices k a ++ [k]) b ++ [k])) c
          (Function.update (Function.update (segAt indices k) a (segAt indices k a ++ [k])) b
            (Function.update (segAt indices k) a (segAt indices k a ++ [k]) b ++ [k]) c ++ [k]))
        (pushTriangle (pushTriangle (pushTriangle s a k) b k) c k) := by
      apply p2.push
      have e1 := hbound c; have e2 := hsucc c; have e3 := htm c
      rw [if_pos rfl] at e3
      rw [update2_seg_len]
      omega
    -- the three updates produce exactly the slices of segAt (k+1)
    have hseg : (Function.update
        (Function.update (Function.update (segAt indices k) a (segAt indices k a ++ [k])) b
          (Function.update (segAt indices k) a (segAt indices k a ++ [k]) b ++ [k])) c
        (Function.update (Function.update (segAt indices k) a (segAt indices k a ++ [k])) b
          (Function.update (segAt indices k) a (segAt indices k a ++ [k]) b ++ [k]) c ++ [k]))
        = segAt indices (k + 1) := by
      funext v
      rw [segAt_succ, update3_apply, ← htm v]
    show ScatterInv (triangleCounts indices) (segAt indices (k + 1))
      (scatterFace indices s k)
    rw [← hseg]
    exact p3

/-- Invariant of the completed scatter pass over all faces. -/
theorem buildAdjacencyScatter_inv (indices : List Nat) (h3 : 3 ∣ indices.length) :
    ScatterInv (triangleCounts indices) (segAt indices (indices.length / 3))
      (buildAdjacencyScatter indices) :=
  scatter_partial_inv indices h3 (indices.length / 3) le_rfl

theorem incidentList_length (indices : List Nat) (h3 : 3 ∣ indices.length) (v : Nat) :
    (incidentList indices v).length = triangleCounts indices v := by
  have hlen : 3 * (indices.length / 3) = indices.length := Nat.mul_div_cancel' h3
  rw [incidentList, segAt_length indices v _ (by omega), hlen, List.take_length,
    triangleCounts_eq]

/-- The slice of flat adjacency data that the optimizers read for vertex `v`
is exactly the incident face list of `v` in face order with multiplicity. -/
theorem adjacencyAt_eq (indices : List Nat) (h3 : 3 ∣ indices.length) (v : Nat) :
    adjacencyAt indices v = incidentList indices v := by
  have hinv := buildAdjacencyScatter_inv indices h3
  have hlen := incidentList_length indices h3 v
  apply List.ext_getElem
  · simpa [adjacencyAt] using hlen.symm
  · intro j hj1 hj2
    have hj : j < (segAt indices (indices.length / 3) v).length := hj2
    have hd := hinv.dat v j hj
    simp only [adjacencyAt, List.getElem_map, List.getElem_range, hd, Option.getD_some]
    rfl

theorem segAt_count (indices : List Nat) (v i : Nat) :
    ∀ k, (segAt indices k v).count i = if i < k then triMult indices v i else 0 := by
  intro k
  induction k with
  | zero => simp [segAt_zero]
  | succ k ih =>
    rw [segAt_succ, List.count_append, ih]
    by_cases h1 : i = k
    · subst h1
      rw [if_neg (lt_irrefl i), if_pos (by omega)]
      simp
    · have hrep : (List.replicate (triMult indices v k) k).count i = 0 := by
        simp [List.count_replicate, h1, Ne.symm h1]
      rw [hrep]
      by_cases h2 : i < k
      · rw [if_pos h2, if_pos (by omega)]
        omega
      · rw [if_neg h2, if_neg (by omega)]

theorem sum_count_eq_length (l : List Nat) (V : Nat) (h : ∀ x ∈ l, x < V) :
    ∑ v in Finset.range V, l.count v = l.length := by
  induction l with
  | nil => simp
  | cons a t ih =>
    have ha : a ∈ Finset.range V := Finset.mem_range.mpr (h a (by simp))
    have iht := ih (fun x hx => h x (by simp [hx]))
    have step : ∀ v, (a :: t).count v = t.count v + if v = a then 1 else 0 := by
      intro v
      rw [List.count_cons]
      by_cases hv : v = a
      · simp [hv]
      · simp [hv, Ne.symm hv]
    calc ∑ v in Finset.range V, (a :: t).count v
        = ∑ v in Finset.range V, (t.count v + if v = a then 1 else 0) :=
          Finset.sum_congr rfl (fun v _ => step v)
      _ = (∑ v in Finset.range V, t.count v)
            + ∑ v in Finset.range V, (if v = a then 1 else 0) := Finset.sum_add_distrib
      _ = t.length + 1 := by
          rw [iht, Finset.sum_ite_eq' (Finset.range V) a (fun _ => 1), if_pos ha]
      _ = (a :: t).length := by simp

/-- C5: after `buildAdjacency` runs on an index buffer of length 3*F with all
indices below `vertex_count`, the per-vertex triangle counts sum to 3*F, and
every face index i in [0, F) occurs in the flat adjacency data exactly with
the multiplicity of each vertex in the face (so exactly 3 occurrences in
total, all inside the slices of the three vertices of the face). -/
theorem C5_adjacency_invariants (indices : List Nat) (vertex_count : Nat)
    (h3 : 3 ∣ indices.length) (hv : ∀ x ∈ indices, x < vertex_count) :
    (∑ v in Finset.range vertex_count, triangleCounts indices v
        = 3 * (indices.length / 3))
    ∧ (∀ i, i < indices.length / 3 →
        (∀ v, (adjacencyAt indices v).count i = triMult indices v i)
        ∧ ∑ v in Finset.range vertex_count, (adjacencyAt indices v).count i = 3) := by
  have hlen : 3 * (indices.length / 3) = indices.length := Nat.mul_div_cancel' h3
  constructor
  · calc ∑ v in Finset.range vertex_count, triangleCounts indices v
        = ∑ v in Finset.range vertex_count, indices.count v :=
          Finset.sum_congr rfl (fun v _ => triangleCounts_eq indices v)
      _ = indices.length := sum_count_eq_length indices vertex_count hv
      _ = 3 * (indices.length / 3) := hlen.symm
  · intro i hi
    have hcount : ∀ v, (adjacencyAt indices v).count i = triMult indices v i := by
      intro v
      rw [adjacencyAt_eq indices h3 v, incidentList, segAt_count, if_pos hi]
    refine ⟨hcount, ?_⟩
    have hmem : ∀ n, n < indices.length → idxAt indices n < vertex_count := by
      intro n hn
      rw [idxAt, List.getD_eq_getElem _ _ hn]
      exact hv _ (List.getElem_mem hn)
    have habc : ∀ x ∈ [idxAt indices (3 * i), idxAt indices (3 * i + 1),
        idxAt indices (3 * i + 2)], x < vertex_count := by
      intro x hx
      simp only [List.mem_cons, List.not_mem_nil, or_false] at hx
      rcases hx with h | h | h <;> (subst h; apply hmem; omega)
    calc ∑ v in Finset.range vertex_count, (adjacencyAt indices v).count i
        = ∑ v in Finset.range vertex_count,
            ([idxAt indices (3 * i), idxAt indices (3 * i + 1),
              idxAt indices (3 * i + 2)] : List Nat).count v :=
          Finset.sum_congr rfl (fun v _ => by rw [hcount v]; rfl)
      _ = 3 := sum_count_eq_length _ _ habc

/-- Witness for C5 at the two-triangle quad 0 1 2, 0 2 3. -/
theorem C5_adjacency_invariants_witness :
    (∑ v in Finset.range 4, triangleCounts [0, 1, 2, 0, 2, 3] v
        = 3 * (([0, 1, 2, 0, 2, 3] : List Nat).length / 3))
    ∧ (∀ i, i < ([0, 1, 2, 0, 2, 3] : List Nat).length / 3 →
        (∀ v, (adjacencyAt [0, 1, 2, 0, 2, 3] v).count i = triMult [0, 1, 2, 0, 2, 3] v i)
        ∧ ∑ v in Finset.range 4, (adjacencyAt [0, 1, 2, 0, 2, 3] v).count i = 3) :=
  C5_adjacency_invariants [0, 1, 2, 0, 2, 3] 4 (by decide) (by decide)

/-- C6 counterexample: the live triangle score table is not nonincreasing over
all pairs i < j in 0..8; in particular entry 0 is 0 while entry 1 is 0.994,
and entry 6 is 0.080 while entry 7 is 0.249. -/
theorem C6_live_table_counterexample :
    ¬ (∀ i j : Fin 9, i < j →
        vertex_score_table_live.getD (j : Nat) 0
          ≤ vertex_score_table_live.getD (i : Nat) 0) := by
  decide

/-- C6 amended: entry 0 of the live score table (live count 0) is the zero
sentinel lying below all other entries, and on live counts 1..8 the table is
nonincreasing except across the pairs (5,7) and (6,7), where entry 7 (0.249)
exceeds entries 5 (0.174) and 6 (0.080). -/
theorem C6_live_table_monotonicity (i j : Fin 9) (hij : i < j) (hi1 : 1 ≤ (i : Nat))
    (h57 : ¬ ((i : Nat) = 5 ∧ (j : Nat) = 7)) (h67 : ¬ ((i : Nat) = 6 ∧ (j : Nat) = 7)) :
    vertex_score_table_live.getD (j : Nat) 0 ≤ vertex_score_table_live.getD (i : Nat) 0 := by
  revert i j hij hi1 h57 h67
  decide

/-- Witness for the amended C6 monotonicity at the pair (1, 2). -/
theorem C6_live_table_monotonicity_witness :
    vertex_score_table_live.getD ((2 : Fin 9) : Nat) 0
      ≤ vertex_score_table_live.getD ((1 : Fin 9) : Nat) 0 :=
  C6_live_table_monotonicity 1 2 (by decide) (by decide) (by decide) (by decide)

/-! ## Destination buffer writes and triangle chunking

Both optimizers emit one face at a time, writing its three indices at
`destination[3 * output_triangle + 0 .. 2]` (source lines 241-243 and
416-418).  The emission order is recorded as the list of emitted face
indices; `writeTrianglesFrom` replays the sequential destination writes. -/

/-- The three indices of face `f` of the index buffer, in their stored order. -/
def tripleOf (indices : List Nat) (f : Nat) : List Nat :=
  [idxAt indices (3 * f), idxAt indices (3 * f + 1), idxAt indices (3 * f + 2)]

/-- One emitted face written at destination positions pos, pos+1, pos+2. -/
def setTriangle (dest : List Nat) (pos a b c : Nat) : List Nat :=
  ((dest.set pos a).set (pos + 1) b).set (pos + 2) c

/-- Replay of the sequential destination writes: the k-th emitted face lands at
positions 3k, 3k+1, 3k+2. -/
def writeTrianglesFrom (indices : List Nat) : List Nat → Nat → List Nat → List Nat
  | dest, _, [] => dest
  | dest, k, f :: rest =>
      writeTrianglesFrom indices
        (setTriangle dest (3 * k) (idxAt indices (3 * f)) (idxAt indices (3 * f + 1))
          (idxAt indices (3 * f + 2)))
        (k + 1) rest

/-- All destination writes of a run that emitted `faces` in order. -/
def writeTriangles (dest indices : List Nat) (faces : List Nat) : List Nat :=
  writeTrianglesFrom indices dest 0 faces

/-- Consecutive index triples of a flat index buffer. -/
def triangles : List Nat → List (Nat × Nat × Nat)
  | a :: b :: c :: rest => (a, b, c) :: triangles rest
  | _ => []

theorem setTriangle_length (dest : List Nat) (pos a b c : Nat) :
    (setTriangle dest pos a b c).length = dest.length := by
  simp [setTriangle]

theorem writeTrianglesFrom_length (indices : List Nat) :
    ∀ (faces dest : List Nat) (k : Nat),
      (writeTrianglesFrom indices dest k faces).length = dest.length := by
  intro faces
  induction faces with
  | nil => intro dest k; rfl
  | cons f rest ih =>
    intro dest k
    rw [writeTrianglesFrom, ih, setTriangle_length]

theorem setTriangle_take (dest : List Nat) (k x y z : Nat) (h : 3 * k + 3 ≤ dest.length) :
    (setTriangle dest (3 * k) x y z).take (3 * k + 3)
      = dest.take (3 * k) ++ [x, y, z] := by
  have hlen : (setTriangle dest (3 * k) x y z).length = dest.length :=
    setTriangle_length dest (3 * k) x y z
  apply List.ext_getElem
  · simp [hlen]
    omega
  · intro p hp1 hp2
    have hp : p < 3 * k + 3 := by
      simp only [List.length_take, hlen] at hp1
      omega
    rw [List.getElem_take]
    have hps : p < (setTriangle dest (3 * k) x y z).length := by omega
    have hpd : p < dest.length := by omega
    have hsetp : (setTriangle dest (3 * k) x y z)[p]
        = if 3 * k + 2 = p then z
          else if 3 * k + 1 = p then y
          else if 3 * k = p then x
          else dest[p] := by
      simp only [setTriangle]
      rw [List.getElem_set, List.getElem_set, List.getElem_set]
    rw [hsetp]
    have hlt : (dest.take (3 * k)).length = 3 * k := by
      simp
      omega
    rcases Nat.lt_or_ge p (3 * k) with hc | hc
    · rw [if_neg (by omega), if_neg (by omega), if_neg (by omega),
        List.getElem_append_left (by omega)]
      rw [List.getElem_take]
    · have h0 : ¬ p < (dest.take (3 * k)).length := by omega
      rw [List.getElem_append_right (by omega)]
      have : p - (dest.take (3 * k)).length = p - 3 * k := by rw [hlt]
      rcases (show p = 3 * k ∨ p = 3 * k + 1 ∨ p = 3 * k + 2 by omega) with he | he | he
      · subst he
        rw [if_neg (by omega), if_neg (by omega), if_pos rfl]
        simp [hlt]
      · subst he
        rw [if_neg (by omega), if_pos rfl]
        simp [hlt]
      · subst he
        rw [if_pos rfl]
        simp [hlt]

/-- Sequential write characterization: when the destination is exactly large
enough, the writes starting at face slot k fill everything after the first 3k
entries with the flat triples of the emitted faces. -/
theorem writeTrianglesFrom_eq (indices : List Nat) :
    ∀ (faces dest : List Nat) (k : Nat),
      dest.length = 3 * k + 3 * faces.length →
      writeTrianglesFrom indices dest k faces
        = dest.take (3 * k) ++ faces.flatMap (tripleOf indices) := by
  intro faces
  induction faces with
  | nil =>
    intro dest k h
    show dest = dest.take (3 * k) ++ []
    simp at h
    rw [List.append_nil, List.take_of_length_le (by omega)]
  | cons f rest ih =>
    intro dest k h
    rw [writeTrianglesFrom]
    have hlen : (setTriangle dest (3 * k) (idxAt indices (3 * f)) (idxAt indices (3 * f + 1))
        (idxAt indices (3 * f + 2))).length = 3 * (k + 1) + 3 * rest.length := by
      rw [setTriangle_length]
      simp at h ⊢
      omega
    rw [ih _ (k + 1) hlen]
    have htake : (setTriangle dest (3 * k) (idxAt indices (3 * f)) (idxAt indices (3 * f + 1))
        (idxAt indices (3 * f + 2))).take (3 * (k + 1))
        = dest.take (3 * k) ++ tripleOf indices f := by
      have : 3 * (k + 1) = 3 * k + 3 := by ring
      rw [this, setTriangle_take dest k _ _ _ (by simp at h; omega)]
      rfl
    rw [htake, List.flatMap_cons, List.append_assoc]

/-- Full-buffer corollary: writes from slot 0 onto a buffer of exactly the
right length produce the concatenated triples of the emitted faces. -/
theorem writeTriangles_eq (indices dest faces : List Nat)
    (h : dest.length = 3 * faces.length) :
    writeTriangles dest indices faces = faces.flatMap (tripleOf indices) := by
  rw [writeTriangles, writeTrianglesFrom_eq indices faces dest 0 (by omega)]
  simp

theorem triangles_flatMap_tripleOf (indices : List Nat) :
    ∀ faces : List Nat,
      triangles (faces.flatMap (tripleOf indices))
        = faces.map (fun f =>
            (idxAt indices (3 * f), idxAt indices (3 * f + 1), idxAt indices (3 * f + 2))) := by
  intro faces
  induction faces with
  | nil => rfl
  | cons f rest ih =>
    rw [List.flatMap_cons, List.map_cons, ← ih]
    rfl

theorem idxAt_cons3 (a b c : Nat) (rest : List Nat) (n : Nat) :
    idxAt (a :: b :: c :: rest) (n + 3) = idxAt rest n := by
  rw [idxAt, idxAt, show n + 3 = n + 2 + 1 from by omega, List.getD_cons_succ,
    show n + 2 = n + 1 + 1 from by omega, List.getD_cons_succ, List.getD_cons_succ]

/-- The triples of a well-formed index buffer are the triples of its faces in
face order. -/
theorem triangles_eq_map : ∀ l : List Nat, 3 ∣ l.length →
    triangles l = (List.range (l.length / 3)).map
      (fun f => (idxAt l (3 * f), idxAt l (3 * f + 1), idxAt l (3 * f + 2)))
  | [], _ => rfl
  | [a], h3 => by simp at h3
  | [a, b], h3 => by simp at h3; omega
  | a :: b :: c :: rest, h3 => by
    have hlen : (a :: b :: c :: rest).length = rest.length + 3 := by simp
    have h3r : 3 ∣ rest.length := by
      rw [hlen] at h3
      omega
    have ih := triangles_eq_map rest h3r
    show (a, b, c) :: triangles rest = _
    rw [ih]
    have hq : (a :: b :: c :: rest).length / 3 = rest.length / 3 + 1 := by
      rw [hlen]
      omega
    rw [hq, List.range_succ_eq_map, List.map_cons, List.map_map]
    refine List.cons_eq_cons.mpr ⟨rfl, ?_⟩
    apply List.map_congr_left
    intro f _
    show (idxAt rest (3 * f), idxAt rest (3 * f + 1), idxAt rest (3 * f + 2))
      = (idxAt (a :: b :: c :: rest) (3 * (f + 1)),
         idxAt (a :: b :: c :: rest) (3 * (f + 1) + 1),
         idxAt (a :: b :: c :: rest) (3 * (f + 1) + 2))
    rw [show 3 * (f + 1) = 3 * f + 3 from by ring,
      show 3 * f + 3 + 1 = (3 * f + 1) + 3 from by ring,
      show 3 * f + 3 + 2 = (3 * f + 2) + 3 from by ring,
      idxAt_cons3, idxAt_cons3, idxAt_cons3]

/-! ## Greedy vertex cache optimizer (source lines 165-347) -/

/-- Cache size fixed by meshopt_optimizeVertexCache (source line 185). -/
def cache_size_greedy : Nat := 16

/-- Swap-with-last removal of the emitted triangle from one adjacency slice
(source lines 285-295): overwrite the first occurrence of `t` with the last
element of the slice and shrink the slice by one; no change when `t` is not in
the slice. -/
def swapRemove (l : List Nat) (t : Nat) : List Nat :=
  if h : t ∈ l then
    (l.set (l.indexOf t) (l.getLast (List.ne_nil_of_mem h))).dropLast
  else l

theorem swapRemove_of_not_mem {l : List Nat} {t : Nat} (h : t ∉ l) :
    swapRemove l t = l := by
  rw [swapRemove, dif_neg h]

theorem swapRemove_perm {l : List Nat} {t : Nat} (h : t ∈ l) :
    List.Perm (swapRemove l t) (l.eraseIdx (l.indexOf t)) := by
  rw [swapRemove, dif_pos h]
  have hil : l.indexOf t < l.length := List.indexOf_lt_length.mpr h
  set i := l.indexOf t with hidef
  set x := l.getLast (List.ne_nil_of_mem h) with hxdef
  set m := l.set i x with hmdef
  have hml : m.length = l.length := by rw [hmdef]; simp
  have hmne : m ≠ [] := by
    intro h0
    rw [h0] at hml
    simp at hml
    omega
  have hlb : l.length - 1 < l.length := by omega
  have hlx : l[l.length - 1] = x := by
    rw [hxdef, List.getLast_eq_getElem]
  have hlast : m.getLast hmne = x := by
    rw [List.getLast_eq_getElem]
    have hbound : m.length - 1 < (l.set i x).length := by
      rw [← hmdef]; omega
    have hmb : m.length - 1 < m.length := by omega
    have h1 : m[m.length - 1] = (l.set i x)[m.length - 1] := by
      simp only [hmdef]
    rw [h1, List.getElem_set]
    split_ifs with hie
    · rfl
    · have hidx : m.length - 1 = l.length - 1 := by omega
      simp only [hidx]
      exact hlx
  have hdecomp : m.dropLast ++ [x] = m := by
    conv_rhs => rw [← List.dropLast_concat_getLast hmne]
    rw [hlast]
  have hperm1 : List.Perm m (x :: l.eraseIdx i) := by
    rw [hmdef, List.set_eq_take_cons_drop x hil, List.eraseIdx_eq_take_drop_succ]
    exact List.perm_middle
  have hperm2 : List.Perm (x :: m.dropLast) m := by
    conv_rhs => rw [← hdecomp]
    exact (List.perm_append_singleton x _).symm
  exact (hperm2.trans hperm1).cons_inv

/-- Decomposition of a list at the first occurrence of a member. -/
theorem indexOf_decomp {l : List Nat} {t : Nat} (h : t ∈ l) :
    l = l.take (l.indexOf t) ++ t :: l.drop (l.indexOf t + 1) := by
  have hil : l.indexOf t < l.length := List.indexOf_lt_length.mpr h
  conv_lhs => rw [← List.take_append_drop (l.indexOf t) l]
  rw [List.drop_eq_getElem_cons hil, List.getElem_indexOf hil]

theorem swapRemove_count {l : List Nat} {t : Nat} (h : t ∈ l) (x : Nat) :
    (swapRemove l t).count x = l.count x - (if x = t then 1 else 0) := by
  have hperm := swapRemove_perm h
  rw [hperm.count_eq, List.eraseIdx_eq_take_drop_succ]
  have hdec := indexOf_decomp h
  conv_rhs => rw [hdec]
  rw [List.count_append, List.count_append, List.count_cons]
  by_cases hx : x = t
  · simp [hx]
  · simp [hx, Ne.symm hx]

theorem swapRemove_length {l : List Nat} {t : Nat} (h : t ∈ l) :
    (swapRemove l t).length = l.length - 1 := by
  have hperm := swapRemove_perm h
  rw [hperm.length_eq, List.length_eraseIdx_of_lt (List.indexOf_lt_length.mpr h)]

theorem swapRemove_subset {l : List Nat} {t : Nat} :
    ∀ x ∈ swapRemove l t, x ∈ l := by
  intro x hx
  by_cases h : t ∈ l
  · have hperm := swapRemove_perm h
    have := hperm.mem_iff.mp hx
    exact (List.eraseIdx_sublist l (l.indexOf t)).mem this
  · rw [swapRemove_of_not_mem h] at hx
    exact hx

/-! ### Greedy optimizer state and step -/

/-- Mutable state of meshopt_optimizeVertexCache: adjacency slices, live
triangle counts, emitted flags, vertex and triangle scores, the simulated
cache, the dead-end input cursor, the emission order, and the accumulated
result of the in-loop assertion checks. -/
structure GreedyState where
  adj : Nat → List Nat
  live : Nat → Nat
  emitted : Nat → Bool
  vertex_scores : Nat → ℤ
  triangle_scores : Nat → ℤ
  cache : List Nat
  input_cursor : Nat
  output : List Nat
  ok : Bool

/-- Accumulator of the score update sweep (source lines 298-334). -/
structure SweepAcc where
  vertex_scores : Nat → ℤ
  triangle_scores : Nat → ℤ
  events : List (Nat × ℤ)
  ok : Bool

/-- Inner loop of the sweep (source lines 318-333): propagate the vertex score
delta to every triangle of one adjacency slice, record each updated triangle
score as a selection event, and check the two source assertions (triangle not
emitted, updated score positive). -/
def sweepTriangles (emitted : Nat → Bool) (score_diff : ℤ) (acc : SweepAcc)
    (tris : List Nat) : SweepAcc :=
  tris.foldl
    (fun a tri =>
      let tri_score := a.triangle_scores tri + score_diff
      { a with
        triangle_scores := Function.update a.triangle_scores tri tri_score,
        events := a.events ++ [(tri, tri_score)],
        ok := a.ok && !emitted tri && decide (0 < tri_score) })
    acc

/-- One vertex of the sweep (source lines 302-317): recompute the vertex score
from its cache position and live count and propagate the difference. -/
def sweepVertex (adj : Nat → List Nat) (live : Nat → Nat) (emitted : Nat → Bool)
    (acc : SweepAcc) (cache_position : ℤ) (v : Nat) : SweepAcc :=
  let score := vertexScore cache_position (live v)
  let score_diff := score - acc.vertex_scores v
  sweepTriangles emitted score_diff
    { acc with vertex_scores := Function.update acc.vertex_scores v score } (adj v)

/-- The sweep over the new cache array; position i counts as evicted (-1) from
the cache size upward (source line 306). -/
def sweepGo (adj : Nat → List Nat) (live : Nat → Nat) (emitted : Nat → Bool) :
    List Nat → Nat → SweepAcc → SweepAcc
  | [], _, acc => acc
  | v :: rest, i, acc =>
      sweepGo adj live emitted rest (i + 1)
        (sweepVertex adj live emitted acc
          (if cache_size_greedy ≤ i then -1 else (i : ℤ)) v)

/-- Selection fold of the sweep (source lines 298-299 and 326-330): start from
no triangle with best score 0 and replace only on a strictly greater score. -/
def selectBest (events : List (Nat × ℤ)) : Option Nat × ℤ :=
  events.foldl (fun best ev => if best.2 < ev.2 then (some ev.1, ev.2) else best) (none, 0)

/-- Forward scan of `getNextTriangleDeadEnd` on structural gas; the gas is the
distance left to the end of the face range, so it never runs out. -/
def getNextTriangleDeadEndGo (emitted : Nat → Bool) (face_count : Nat) :
    Nat → Nat → Option Nat × Nat
  | 0, input_cursor => (none, input_cursor)
  | gas + 1, input_cursor =>
      if input_cursor < face_count then
        if emitted input_cursor then
          getNextTriangleDeadEndGo emitted face_count gas (input_cursor + 1)
        else (some input_cursor, input_cursor)
      else (none, input_cursor)

/-- Source lines 149-161: scan forward from the persisted cursor for the next
unemitted triangle; the cursor stays on the returned triangle.  The sentinel
`~0u` becomes `none`, and the updated cursor is returned alongside. -/
def getNextTriangleDeadEnd (emitted : Nat → Bool) (face_count : Nat)
    (input_cursor : Nat) : Option Nat × Nat :=
  getNextTriangleDeadEndGo emitted face_count (face_count - input_cursor) input_cursor

/-- The gas-based scan satisfies the loop recurrence of source lines 149-161. -/
theorem getNextTriangleDeadEnd_eq (emitted : Nat → Bool) (face_count input_cursor : Nat) :
    getNextTriangleDeadEnd emitted face_count input_cursor
      = if input_cursor < face_count then
          (if emitted input_cursor then
            getNextTriangleDeadEnd emitted face_count (input_cursor + 1)
          else (some input_cursor, input_cursor))
        else (none, input_cursor) := by
  by_cases h : input_cursor < face_count
  · rw [getNextTriangleDeadEnd, show face_count - input_cursor
      = (face_count - (input_cursor + 1)) + 1 from by omega]
    rw [getNextTriangleDeadEndGo, if_pos h, if_pos h]
    rfl
  · rw [getNextTriangleDeadEnd, show face_count - input_cursor = 0 from by omega,
      getNextTriangleDeadEndGo, if_neg h]

/-- The three sequential live count decrements of one emitted triangle, in
a, b, c order (source lines 272-274 and 428-430). -/
def liveDec3 (live : Nat → Nat) (a b c : Nat) : Nat → Nat :=
  let live1 := Function.update live a (live a - 1)
  let live2 := Function.update live1 b (live1 b - 1)
  Function.update live2 c (live2 c - 1)

/-- The three sequential swap-with-last removals of one emitted triangle from
the adjacency slices of its vertices, in a, b, c order (source lines
278-296). -/
def adjRemove3 (adj : Nat → List Nat) (a b c t : Nat) : Nat → List Nat :=
  let adj1 := Function.update adj a (swapRemove (adj a) t)
  let adj2 := Function.update adj1 b (swapRemove (adj1 b) t)
  Function.update adj2 c (swapRemove (adj2 c) t)

/-- The new cache array of one greedy iteration (source lines 250-265): the
three vertices of the emitted triangle followed by the surviving prior cache
entries. -/
def greedyCacheNew (indices : List Nat) (s : GreedyState) (t : Nat) : List Nat :=
  let a := idxAt indices (3 * t)
  let b := idxAt indices (3 * t + 1)
  let c := idxAt indices (3 * t + 2)
  a :: b :: c :: s.cache.filter (fun x => !(x == a) && !(x == b) && !(x == c))

/-- The sweep of one greedy iteration (source lines 298-334), run on the state
after the emission bookkeeping: flag set, triangle score zeroed, live counts
decremented, triangle removed from its three adjacency slices. -/
def greedySweep (indices : List Nat) (s : GreedyState) (t : Nat) : SweepAcc :=
  let a := idxAt indices (3 * t)
  let b := idxAt indices (3 * t + 1)
  let c := idxAt indices (3 * t + 2)
  sweepGo (adjRemove3 s.adj a b c t) (liveDec3 s.live a b c)
    (Function.update s.emitted t true) (greedyCacheNew indices s t) 0
    { vertex_scores := s.vertex_scores,
      triangle_scores := Function.update s.triangle_scores t 0,
      events := [], ok := true }

/-- The state after one iteration of the main emission loop on triangle `t`
(source lines 232-343), before the fallback cursor update.  The `ok` field
additionally records that the input-order fallback fires exactly when no
pending triangle is adjacent to a vertex of the new cache array. -/
def greedyStepState (indices : List Nat) (face_count : Nat) (s : GreedyState)
    (t : Nat) : GreedyState :=
  let a := idxAt indices (3 * t)
  let b := idxAt indices (3 * t + 1)
  let c := idxAt indices (3 * t + 2)
  let cache_new := greedyCacheNew indices s t
  let cache_count :=
    if cache_size_greedy < cache_new.length then cache_size_greedy else cache_new.length
  let emitted := Function.update s.emitted t true
  let sw := greedySweep indices s t
  let best := (selectBest sw.events).1
  let okStep := sw.ok &&
    (best.isNone == decide (∀ v ∈ cache_new, ∀ f ∈ List.range face_count,
      emitted f = true ∨ v ∉ tripleOf indices f))
  { adj := adjRemove3 s.adj a b c t, live := liveDec3 s.live a b c, emitted := emitted,
    vertex_scores := sw.vertex_scores, triangle_scores := sw.triangle_scores,
    cache := cache_new.take cache_count, input_cursor := s.input_cursor,
    output := s.output ++ [t], ok := s.ok && okStep }

/-- One iteration of the main emission loop of meshopt_optimizeVertexCache
(source lines 232-343) on the current triangle `t`, returning the new state
and the next current triangle (`none` for the sentinel `~0u`): the best
triangle of the sweep, with the input-order fallback on a dead-end (source
lines 336-342). -/
def greedyStep (indices : List Nat) (face_count : Nat) (s : GreedyState) (t : Nat) :
    GreedyState × Option Nat :=
  match (selectBest (greedySweep indices s t).events).1 with
  | some t2 => (greedyStepState indices face_count s t, some t2)
  | none =>
      let nd := getNextTriangleDeadEnd (Function.update s.emitted t true) face_count
        s.input_cursor
      ({ greedyStepState indices face_count s t with input_cursor := nd.2 }, nd.1)

/-- The main emission loop (source lines 232-343) on explicit fuel; the proofs
show that fuel `face_count` always suffices. -/
def greedyLoop (indices : List Nat) (face_count : Nat) :
    Nat → GreedyState → Option Nat → GreedyState
  | _, s, none => s
  | 0, s, some _ => s
  | fuel + 1, s, some t =>
      let st := greedyStep indices face_count s t
      greedyLoop indices face_count fuel st.1 st.2

/-- Setup and run of the greedy optimizer on a nonempty mesh (source lines
185-343): adjacency from buildAdjacency, live counts copied from the triangle
counts, initial vertex scores with cache position -1, triangle scores as sums
of vertex scores, empty cache, current triangle 0, input cursor 1. -/
def greedyRun (indices : List Nat) : GreedyState :=
  let face_count := indices.length / 3
  let live := triangleCounts indices
  let vertex_scores := fun v => vertexScore (-1) (live v)
  let s0 : GreedyState :=
    { adj := adjacencyAt indices, live := live,
      emitted := fun _ => false,
      vertex_scores := vertex_scores,
      triangle_scores := fun t =>
        vertex_scores (idxAt indices (3 * t)) + vertex_scores (idxAt indices (3 * t + 1))
          + vertex_scores (idxAt indices (3 * t + 2)),
      cache := [], input_cursor := 1, output := [], ok := true }
  greedyLoop indices face_count face_count s0 (some 0)

/-- meshopt_optimizeVertexCache (source lines 165-347): guard for empty
meshes, then run the greedy reorderer and write the emitted triangles to the
destination.  In-place calls are safe because the source snapshots the index
buffer before any write (lines 176-183); the embedding reads only the
snapshot `indices` and writes only `destination`. -/
def meshopt_optimizeVertexCache (destination indices : List Nat)
    (vertex_count : Nat) : List Nat :=
  if indices.length = 0 ∨ vertex_count = 0 then destination
  else writeTriangles destination indices (greedyRun indices).output

/-! ### Cache update shape (claim C2) -/

theorem take_cache_count (l : List Nat) :
    l.take (if cache_size_greedy < l.length then cache_size_greedy else l.length)
      = l.take cache_size_greedy := by
  split_ifs with h
  · rfl
  · rw [List.take_length, List.take_of_length_le (by omega)]

/-- C2: each iteration of the greedy reorderer replaces the simulated cache by
the list that starts with the three vertices of the just-emitted triangle in
a, b, c order, followed by the prior cache entries that are not among those
three vertices in their previous relative order, truncated to the cache
capacity 16. -/
theorem C2_cache_update (indices : List Nat) (face_count : Nat) (s : GreedyState)
    (t : Nat) :
    (greedyStep indices face_count s t).1.cache
      = (idxAt indices (3 * t) :: idxAt indices (3 * t + 1) :: idxAt indices (3 * t + 2) ::
          s.cache.filter (fun x => decide (x ∉ [idxAt indices (3 * t),
            idxAt indices (3 * t + 1), idxAt indices (3 * t + 2)]))).take 16 := by
  have hfun : ∀ x ∈ s.cache,
      (!(x == idxAt indices (3 * t)) && !(x == idxAt indices (3 * t + 1))
        && !(x == idxAt indices (3 * t + 2)))
      = decide (x ∉ ([idxAt indices (3 * t), idxAt indices (3 * t + 1),
          idxAt indices (3 * t + 2)] : List Nat)) := by
    intro x _
    by_cases h1 : x = idxAt indices (3 * t) <;>
      by_cases h2 : x = idxAt indices (3 * t + 1) <;>
      by_cases h3 : x = idxAt indices (3 * t + 2) <;>
      simp [h1, h2, h3]
  have hcache : (greedyStepState indices face_count s t).cache
      = (greedyCacheNew indices s t).take cache_size_greedy := by
    simp only [greedyStepState]
    exact take_cache_count _
  have hnew : greedyCacheNew indices s t
      = idxAt indices (3 * t) :: idxAt indices (3 * t + 1) :: idxAt indices (3 * t + 2) ::
          s.cache.filter (fun x => decide (x ∉ [idxAt indices (3 * t),
            idxAt indices (3 * t + 1), idxAt indices (3 * t + 2)])) := by
    simp only [greedyCacheNew]
    rw [List.filter_congr hfun]
  rw [hnew] at hcache
  rw [greedyStep]
  split
  · exact hcache
  · exact hcache

/-! ### First maximum wins in the sweep selection (claim C3) -/

theorem selectFold_spec (events : List (Nat × ℤ)) :
    ∀ b : Option Nat × ℤ,
      (events.foldl (fun best ev => if best.2 < ev.2 then (some ev.1, ev.2) else best) b = b
        ∧ ∀ j, (hj : j < events.length) → (events[j]).2 ≤ b.2)
      ∨ (∃ k, ∃ hk : k < events.length,
          events.foldl (fun best ev => if best.2 < ev.2 then (some ev.1, ev.2) else best) b
            = (some (events[k]).1, (events[k]).2)
          ∧ b.2 < (events[k]).2
          ∧ (∀ j, (hj : j < k) → (events[j]).2 < (events[k]).2)
          ∧ (∀ j, (hj : j < events.length) → (events[j]).2 ≤ (events[k]).2)) := by
  induction events with
  | nil => intro b; left; exact ⟨rfl, fun j hj => by simp at hj⟩
  | cons x rest ih =>
    intro b
    rw [List.foldl_cons]
    by_cases hx : b.2 < x.2
    · rw [if_pos hx]
      rcases ih (some x.1, x.2) with ⟨hres, hle⟩ | ⟨k, hk, hres, hgt, hfirst, hle⟩
      · have hle2 : ∀ j, (hj : j < rest.length) → (rest[j]).2 ≤ x.2 :=
          fun j hj => by simpa using hle j hj
        right
        refine ⟨0, by simp, ?_, ?_, ?_, ?_⟩
        · rw [hres]; simp
        · simpa using hx
        · intro j hj; omega
        · intro j hj
          match j with
          | 0 => simp
          | j' + 1 =>
            simp only [List.getElem_cons_succ, List.getElem_cons_zero]
            exact hle2 j' (by simpa using hj)
      · have hgt2 : x.2 < (rest[k]).2 := by simpa using hgt
        right
        refine ⟨k + 1, by simpa using hk, ?_, ?_, ?_, ?_⟩
        · rw [hres]; simp
        · simp only [List.getElem_cons_succ]
          exact lt_trans hx hgt2
        · intro j hj
          match j with
          | 0 =>
            simp only [List.getElem_cons_zero, List.getElem_cons_succ]
            exact hgt2
          | j' + 1 =>
            simp only [List.getElem_cons_succ]
            exact hfirst j' (by omega)
        · intro j hj
          match j with
          | 0 =>
            simp only [List.getElem_cons_zero, List.getElem_cons_succ]
            exact le_of_lt hgt2
          | j' + 1 =>
            simp only [List.getElem_cons_succ]
            exact hle j' (by simpa using hj)
    · rw [if_neg hx]
      rcases ih b with ⟨hres, hle⟩ | ⟨k, hk, hres, hgt, hfirst, hle⟩
      · left
        refine ⟨hres, ?_⟩
        intro j hj
        match j with
        | 0 => simpa using le_of_not_lt hx
        | j' + 1 =>
          rw [List.getElem_cons_succ]
          exact hle j' (by simpa using hj)
      · right
        refine ⟨k + 1, by simpa using hk, ?_, ?_, ?_, ?_⟩
        · rw [hres]; simp
        · simp only [List.getElem_cons_succ]
          exact hgt
        · intro j hj
          match j with
          | 0 =>
            simp only [List.getElem_cons_zero, List.getElem_cons_succ]
            exact lt_of_le_of_lt (le_of_not_lt hx) hgt
          | j' + 1 =>
            simp only [List.getElem_cons_succ]
            exact hfirst j' (by omega)
        · intro j hj
          match j with
          | 0 =>
            simp only [List.getElem_cons_zero, List.getElem_cons_succ]
            exact le_of_lt (lt_of_le_of_lt (le_of_not_lt hx) hgt)
          | j' + 1 =>
            simp only [List.getElem_cons_succ]
            exact hle j' (by simpa using hj)

/-- C3: the selection fold of the score update sweep returns the first event
in sweep order whose updated score attains the maximum of all events; a later
event with an exactly equal score never replaces it, because the comparison is
strict.  `greedyStep` computes its next current triangle as `selectBest` of
the sweep events in sweep order, starting from best score 0. -/
theorem C3_first_max_wins (events : List (Nat × ℤ)) (t : Nat)
    (h : (selectBest events).1 = some t) :
    ∃ k, ∃ hk : k < events.length,
      (events[k]).1 = t
      ∧ (events[k]).2 = (selectBest events).2
      ∧ 0 < (events[k]).2
      ∧ (∀ j, (hj : j < k) → (events[j]).2 < (events[k]).2)
      ∧ (∀ j, (hj : j < events.length) → (events[j]).2 ≤ (events[k]).2) := by
  rcases selectFold_spec events (none, 0) with ⟨hres, _⟩ | ⟨k, hk, hres, hgt, hfirst, hle⟩
  · rw [selectBest, hres] at h
    simp at h
  · rw [selectBest] at h ⊢
    rw [hres] at h ⊢
    simp only at h
    refine ⟨k, hk, ?_, rfl, ?_, hfirst, hle⟩
    · simpa using h
    · simpa using hgt

/-- Witness for C3 on a concrete event stream with a tied maximum: the
selection returns the triangle of the first maximal event. -/
theorem C3_first_max_wins_witness :
    ∃ k, ∃ hk : k < ([(5, 10), (7, 10), (3, 4)] : List (Nat × ℤ)).length,
      (([(5, 10), (7, 10), (3, 4)] : List (Nat × ℤ))[k]).1 = 5
      ∧ (([(5, 10), (7, 10), (3, 4)] : List (Nat × ℤ))[k]).2
          = (selectBest [(5, 10), (7, 10), (3, 4)]).2
      ∧ 0 < (([(5, 10), (7, 10), (3, 4)] : List (Nat × ℤ))[k]).2
      ∧ (∀ j, (hj : j < k) →
          (([(5, 10), (7, 10), (3, 4)] : List (Nat × ℤ))[j]).2
            < (([(5, 10), (7, 10), (3, 4)] : List (Nat × ℤ))[k]).2)
      ∧ (∀ j, (hj : j < ([(5, 10), (7, 10), (3, 4)] : List (Nat × ℤ)).length) →
          (([(5, 10), (7, 10), (3, 4)] : List (Nat × ℤ))[j]).2
            ≤ (([(5, 10), (7, 10), (3, 4)] : List (Nat × ℤ))[k]).2) :=
  C3_first_max_wins [(5, 10), (7, 10), (3, 4)] 5 (by decide)

/-! ## FIFO vertex cache optimizer (source lines 86-138 and 349-461) -/

/-- Source lines 109-138: scan the candidate range for the next vertex.  Only
vertices with a nonzero live triangle count are considered; a candidate whose
full fan still fits in cache after fanning receives its cache age
`timestamp - cache_timestamps[vertex]` as priority, otherwise priority 0; the
first candidate with the strictly greatest priority wins (initial best
priority -1, so any live candidate beats the empty selection).  Along all
reachable states `cache_timestamps v ≤ timestamp`, so `Nat` subtraction agrees
with the unsigned subtraction of the source. -/
def neighbourPriority (live_triangles cache_timestamps : Nat → Nat)
    (timestamp cache_size vertex : Nat) : ℤ :=
  if 2 * live_triangles vertex + timestamp - cache_timestamps vertex ≤ cache_size
  then ((timestamp - cache_timestamps vertex : Nat) : ℤ)
  else 0

/-- Source lines 109-138, the candidate scan itself. -/
def getNextVertexNeighbour (next_candidates : List Nat) (live_triangles : Nat → Nat)
    (cache_timestamps : Nat → Nat) (timestamp cache_size : Nat) : Option Nat :=
  (next_candidates.foldl
    (fun (best : Option Nat × ℤ) vertex =>
      if 0 < live_triangles vertex then
        let priority : ℤ :=
          neighbourPriority live_triangles cache_timestamps timestamp cache_size vertex
        if best.2 < priority then (some vertex, priority) else best
      else best)
    (none, -1)).1

/-- Mutable state of meshopt_optimizeVertexCacheFifo: live triangle counts,
cache timestamps, the dead-end stack (stack top at the list end), emitted
flags, the logical clock, the vertex restart cursor and the emission order. -/
structure FifoState where
  live : Nat → Nat
  cache_timestamps : Nat → Nat
  dead_end : List Nat
  emitted : Nat → Bool
  timestamp : Nat
  input_cursor : Nat
  output : List Nat

/-- Source lines 407-446, one candidate triangle of the inner emission loop:
emit it unless already emitted, push its vertices on the dead-end stack,
decrement their live counts, and give each vertex that is not fresh in cache
(age above `cache_size`) the next timestamp, in a, b, c order. -/
def fifoEmit (indices : List Nat) (cache_size : Nat) (s : FifoState)
    (triangle : Nat) : FifoState :=
  if s.emitted triangle then s
  else
    let a := idxAt indices (3 * triangle)
    let b := idxAt indices (3 * triangle + 1)
    let c := idxAt indices (3 * triangle + 2)
    let output := s.output ++ [triangle]
    let dead_end := s.dead_end ++ [a, b, c]
    let live := liveDec3 s.live a b c
    let p1 : (Nat → Nat) × Nat :=
      if cache_size < s.timestamp - s.cache_timestamps a
      then (Function.update s.cache_timestamps a s.timestamp, s.timestamp + 1)
      else (s.cache_timestamps, s.timestamp)
    let p2 : (Nat → Nat) × Nat :=
      if cache_size < p1.2 - p1.1 b
      then (Function.update p1.1 b p1.2, p1.2 + 1)
      else p1
    let p3 : (Nat → Nat) × Nat :=
      if cache_size < p2.2 - p2.1 c
      then (Function.update p2.1 c p2.2, p2.2 + 1)
      else p2
    { live := live, cache_timestamps := p3.1, dead_end := dead_end,
      emitted := Function.update s.emitted triangle true,
      timestamp := p3.2, input_cursor := s.input_cursor, output := output }

/-- Source lines 89-95 on the reversed stack: pop entries until one with a
nonzero live count appears; the returned vertex is consumed as well. -/
def popLive (live : Nat → Nat) : List Nat → Option Nat × List Nat
  | [] => (none, [])
  | v :: rest => if 0 < live v then (some v, rest) else popLive live rest

/-- Source lines 98-104 on structural gas: scan vertices from the cursor for
a nonzero live count; the cursor stays on the returned vertex. -/
def vertexScanGo (live : Nat → Nat) (vertex_count : Nat) : Nat → Nat → Option Nat × Nat
  | 0, input_cursor => (none, input_cursor)
  | gas + 1, input_cursor =>
      if input_cursor < vertex_count then
        if 0 < live input_cursor then (some input_cursor, input_cursor)
        else vertexScanGo live vertex_count gas (input_cursor + 1)
      else (none, input_cursor)

/-- Source lines 86-107: pop the dead-end stack for a live vertex, else scan
vertices from the persisted cursor.  Returns the selected vertex, the stack
after the pops, and the updated cursor. -/
def getNextVertexDeadEnd (dead_end : List Nat) (live : Nat → Nat)
    (vertex_count input_cursor : Nat) : Option Nat × List Nat × Nat :=
  let p := popLive live dead_end.reverse
  match p.1 with
  | some v => (some v, p.2.reverse, input_cursor)
  | none =>
      let q := vertexScanGo live vertex_count (vertex_count - input_cursor) input_cursor
      (q.1, [], q.2)

/-- The inner emission loop of one outer iteration of
meshopt_optimizeVertexCacheFifo (source lines 403-446): every triangle of the
current vertex's adjacency slice runs through fifoEmit. -/
def fifoStepEmit (indices : List Nat) (adj : Nat → List Nat) (cache_size : Nat)
    (s : FifoState) (current_vertex : Nat) : FifoState :=
  (adj current_vertex).foldl (fifoEmit indices cache_size) s

/-- The neighbour selection of one outer iteration (source lines 448-452): the
candidates are the dead-end entries pushed during this iteration, i.e. the
stack beyond the length it had at entry. -/
def fifoStepNeighbour (indices : List Nat) (adj : Nat → List Nat) (cache_size : Nat)
    (s : FifoState) (current_vertex : Nat) : Option Nat :=
  getNextVertexNeighbour
    ((fifoStepEmit indices adj cache_size s current_vertex).dead_end.drop s.dead_end.length)
    (fifoStepEmit indices adj cache_size s current_vertex).live
    (fifoStepEmit indices adj cache_size s current_vertex).cache_timestamps
    (fifoStepEmit indices adj cache_size s current_vertex).timestamp cache_size

/-- One iteration of the outer loop of meshopt_optimizeVertexCacheFifo
(source lines 399-458) on the current vertex: emit every pending triangle of
its adjacency slice, then pick the next vertex among the candidates pushed on
the dead-end stack during this iteration, falling back to the dead-end pop and
the input-order vertex scan. -/
def fifoStep (indices : List Nat) (adj : Nat → List Nat) (vertex_count cache_size : Nat)
    (s : FifoState) (current_vertex : Nat) : FifoState × Option Nat :=
  match fifoStepNeighbour indices adj cache_size s current_vertex with
  | some v => (fifoStepEmit indices adj cache_size s current_vertex, some v)
  | none =>
      let nd := getNextVertexDeadEnd
        (fifoStepEmit indices adj cache_size s current_vertex).dead_end
        (fifoStepEmit indices adj cache_size s current_vertex).live vertex_count
        (fifoStepEmit indices adj cache_size s current_vertex).input_cursor
      ({ fifoStepEmit indices adj cache_size s current_vertex with
         dead_end := nd.2.1, input_cursor := nd.2.2 }, nd.1)

/-- The outer loop (source lines 399-458) on explicit fuel; the proofs show
that fuel `face_count + 1` always suffices. -/
def fifoLoop (indices : List Nat) (adj : Nat → List Nat) (vertex_count cache_size : Nat) :
    Nat → FifoState → Option Nat → FifoState × Option Nat
  | _, s, none => (s, none)
  | 0, s, some v => (s, some v)
  | fuel + 1, s, some v =>
      let st := fifoStep indices adj vertex_count cache_size s v
      fifoLoop indices adj vertex_count cache_size fuel st.1 st.2

/-- Setup and run of the FIFO optimizer on a nonempty mesh (source lines
370-458): adjacency from buildAdjacency, live counts copied from the triangle
counts, zero cache timestamps with the clock at cache_size + 1 (nothing is
initially cached), empty dead-end stack, current vertex 0, vertex cursor 1. -/
def fifoRun (indices : List Nat) (vertex_count cache_size : Nat) :
    FifoState × Option Nat :=
  let face_count := indices.length / 3
  let s0 : FifoState :=
    { live := triangleCounts indices, cache_timestamps := fun _ => 0,
      dead_end := [], emitted := fun _ => false, timestamp := cache_size + 1,
      input_cursor := 1, output := [] }
  fifoLoop indices (adjacencyAt indices) vertex_count cache_size (face_count + 1) s0 (some 0)

/-- meshopt_optimizeVertexCacheFifo (source lines 349-461): guard for empty
meshes, then run the FIFO reorderer and write the emitted triangles to the
destination.  In-place calls are safe because the source snapshots the index
buffer before any write (lines 361-368); the embedding reads only the
snapshot `indices` and writes only `destination`. -/
def meshopt_optimizeVertexCacheFifo (destination indices : List Nat)
    (vertex_count cache_size : Nat) : List Nat :=
  if indices.length = 0 ∨ vertex_count = 0 then destination
  else writeTriangles destination indices (fifoRun indices vertex_count cache_size).1.output

/-! ### Neighbour selection of the FIFO variant (claim C4) -/

theorem neighbourPriority_nonneg (live ctimes : Nat → Nat) (timestamp cache_size v : Nat) :
    0 ≤ neighbourPriority live ctimes timestamp cache_size v := by
  rw [neighbourPriority]
  split_ifs
  · exact Int.natCast_nonneg _
  · exact le_refl 0

theorem fifoSelect_spec (live ctimes : Nat → Nat) (timestamp cache_size : Nat)
    (cands : List Nat) :
    ∀ b : Option Nat × ℤ,
      (cands.foldl
          (fun (best : Option Nat × ℤ) vertex =>
            if 0 < live vertex then
              let priority := neighbourPriority live ctimes timestamp cache_size vertex
              if best.2 < priority then (some vertex, priority) else best
            else best)
          b = b
        ∧ ∀ v ∈ cands, 0 < live v →
            neighbourPriority live ctimes timestamp cache_size v ≤ b.2)
      ∨ (∃ k, ∃ hk : k < cands.length,
          cands.foldl
            (fun (best : Option Nat × ℤ) vertex =>
              if 0 < live vertex then
                let priority := neighbourPriority live ctimes timestamp cache_size vertex
                if best.2 < priority then (some vertex, priority) else best
              else best)
            b
            = (some (cands[k]),
               neighbourPriority live ctimes timestamp cache_size (cands[k]))
          ∧ 0 < live (cands[k])
          ∧ b.2 < neighbourPriority live ctimes timestamp cache_size (cands[k])
          ∧ (∀ j, (hj : j < k) → 0 < live (cands[j]) →
              neighbourPriority live ctimes timestamp cache_size (cands[j])
                < neighbourPriority live ctimes timestamp cache_size (cands[k]))
          ∧ (∀ v ∈ cands, 0 < live v →
              neighbourPriority live ctimes timestamp cache_size v
                ≤ neighbourPriority live ctimes timestamp cache_size (cands[k]))) := by
  induction cands with
  | nil => intro b; left; exact ⟨rfl, fun v hv => by simp at hv⟩
  | cons x rest ih =>
    intro b
    rw [List.foldl_cons]
    by_cases hlx : 0 < live x
    · rw [if_pos hlx]
      simp only
      by_cases hbx : b.2 < neighbourPriority live ctimes timestamp cache_size x
      · rw [if_pos hbx]
        rcases ih (some x, neighbourPriority live ctimes timestamp cache_size x) with
          ⟨hres, hle⟩ | ⟨k, hk, hres, hlk, hgt, hfirst, hle⟩
        · right
          refine ⟨0, by simp, ?_, by simpa using hlx, by simpa using hbx, ?_, ?_⟩
          · rw [hres]; simp
          · intro j hj; omega
          · intro v hv hlv
            rcases List.mem_cons.mp hv with hvx | hvr
            · subst hvx; simp
            · simpa using hle v hvr hlv
        · have hgt2 : neighbourPriority live ctimes timestamp cache_size x
              < neighbourPriority live ctimes timestamp cache_size (rest[k]) := by
            simpa using hgt
          right
          refine ⟨k + 1, by simpa using hk, ?_, ?_, ?_, ?_, ?_⟩
          · rw [hres]; simp
          · simpa using hlk
          · simp only [List.getElem_cons_succ]
            exact lt_trans hbx hgt2
          · intro j hj
            match j with
            | 0 =>
              intro _
              simpa using hgt2
            | j' + 1 =>
              simp only [List.getElem_cons_succ]
              exact hfirst j' (by omega)
          · intro v hv hlv
            rcases List.mem_cons.mp hv with hvx | hvr
            · subst hvx
              simp only [List.getElem_cons_succ]
              exact le_of_lt hgt2
            · simp only [List.getElem_cons_succ]
              exact hle v hvr hlv
      · rw [if_neg hbx]
        rcases ih b with ⟨hres, hle⟩ | ⟨k, hk, hres, hlk, hgt, hfirst, hle⟩
        · left
          refine ⟨hres, ?_⟩
          intro v hv hlv
          rcases List.mem_cons.mp hv with hvx | hvr
          · subst hvx; exact le_of_not_lt hbx
          · exact hle v hvr hlv
        · right
          refine ⟨k + 1, by simpa using hk, ?_, ?_, ?_, ?_, ?_⟩
          · rw [hres]; simp
          · simpa using hlk
          · simp only [List.getElem_cons_succ]
            exact hgt
          · intro j hj
            match j with
            | 0 =>
              intro _
              simp only [List.getElem_cons_zero, List.getElem_cons_succ]
              exact lt_of_le_of_lt (le_of_not_lt hbx) hgt
            | j' + 1 =>
              simp only [List.getElem_cons_succ]
              exact hfirst j' (by omega)
          · intro v hv hlv
            rcases List.mem_cons.mp hv with hvx | hvr
            · subst hvx
              simp only [List.getElem_cons_succ]
              exact le_of_lt (lt_of_le_of_lt (le_of_not_lt hbx) hgt)
            · simp only [List.getElem_cons_succ]
              exact hle v hvr hlv
    · rw [if_neg hlx]
      rcases ih b with ⟨hres, hle⟩ | ⟨k, hk, hres, hlk, hgt, hfirst, hle⟩
      · left
        refine ⟨hres, ?_⟩
        intro v hv hlv
        rcases List.mem_cons.mp hv with hvx | hvr
        · subst hvx; exact absurd hlv hlx
        · exact hle v hvr hlv
      · right
        refine ⟨k + 1, by simpa using hk, ?_, ?_, ?_, ?_, ?_⟩
        · rw [hres]; simp
        · simpa using hlk
        · simp only [List.getElem_cons_succ]
          exact hgt
        · intro j hj
          match j with
          | 0 =>
            intro h0
            exact absurd (by simpa using h0) hlx
          | j' + 1 =>
            simp only [List.getElem_cons_succ]
            exact hfirst j' (by omega)
        · intro v hv hlv
          rcases List.mem_cons.mp hv with hvx | hvr
          · subst hvx; exact absurd hlv hlx
          · simp only [List.getElem_cons_succ]
            exact hle v hvr hlv

/-- C4 counterexample: two candidates, both with nonzero live count and both
with a fan that fits in cache, at ages 2 and 5; the selection returns the
candidate with the larger age (the least-recently-cached one), not the
most-recently-cached candidate as the claim describes the tie-break. -/
theorem C4_recency_counterexample :
    getNextVertexNeighbour [5, 7] (fun _ => 1) (fun v => if v = 5 then 8 else 5) 10 16
        = some 7
    ∧ (10 - (if (7 : Nat) = 5 then 8 else 5) : Nat)
        > (10 - (if (5 : Nat) = 5 then 8 else 5) : Nat) := by
  constructor
  · decide
  · decide

/-- C4 amended: the neighbour selection considers only candidates with a
nonzero live triangle count; a considered candidate receives priority
`timestamp - cache_timestamps[vertex]` (its cache age) when
`2 * live + timestamp - cache_timestamps[vertex] <= cache_size`, and priority
0 otherwise; the selection returns the first candidate in scan order attaining
the strictly greatest priority, which among fitting candidates is the largest
age, i.e. the least-recently-cached one (not the most-recently-cached); if no
candidate has a nonzero live count, no neighbour is selected. -/
theorem C4_neighbour_selection (next_candidates : List Nat) (live ctimes : Nat → Nat)
    (timestamp cache_size : Nat) :
    (getNextVertexNeighbour next_candidates live ctimes timestamp cache_size = none
      ↔ ∀ v ∈ next_candidates, ¬ 0 < live v)
    ∧ (∀ v, getNextVertexNeighbour next_candidates live ctimes timestamp cache_size = some v →
        ∃ k, ∃ hk : k < next_candidates.length,
          next_candidates[k] = v ∧ 0 < live v
          ∧ (∀ j, (hj : j < k) → 0 < live (next_candidates[j]) →
              neighbourPriority live ctimes timestamp cache_size (next_candidates[j])
                < neighbourPriority live ctimes timestamp cache_size v)
          ∧ (∀ w ∈ next_candidates, 0 < live w →
              neighbourPriority live ctimes timestamp cache_size w
                ≤ neighbourPriority live ctimes timestamp cache_size v)) := by
  rcases fifoSelect_spec live ctimes timestamp cache_size next_candidates (none, -1) with
    ⟨hres, hle⟩ | ⟨k, hk, hres, hlk, _, hfirst, hle⟩
  · constructor
    · constructor
      · intro _ v hv hlv
        have h1 := hle v hv hlv
        have h2 := neighbourPriority_nonneg live ctimes timestamp cache_size v
        simp only at h1
        omega
      · intro _
        rw [getNextVertexNeighbour, hres]
    · intro v hv
      rw [getNextVertexNeighbour, hres] at hv
      simp at hv
  · constructor
    · constructor
      · intro h0
        rw [getNextVertexNeighbour, hres] at h0
        simp at h0
      · intro hall
        exact absurd hlk (hall _ (List.getElem_mem hk))
    · intro v hv
      rw [getNextVertexNeighbour, hres] at hv
      simp only [Option.some_inj] at hv
      refine ⟨k, hk, hv, ?_, ?_, ?_⟩
      · rw [← hv]; exact hlk
      · intro j hj hlj
        rw [← hv]
        exact hfirst j hj hlj
      · intro w hw hlw
        rw [← hv]
        exact hle w hw hlw

/-- Witness for the amended C4 at the counterexample input: the returned
candidate is vertex 7, which attains the maximal priority. -/
theorem C4_neighbour_selection_witness :
    ∃ k, ∃ hk : k < ([5, 7] : List Nat).length,
      ([5, 7] : List Nat)[k] = 7 ∧ 0 < (fun (_ : Nat) => 1) 7
      ∧ (∀ j, (hj : j < k) → 0 < (fun (_ : Nat) => 1) (([5, 7] : List Nat)[j]) →
          neighbourPriority (fun _ => 1) (fun v => if v = 5 then 8 else 5) 10 16
              (([5, 7] : List Nat)[j])
            < neighbourPriority (fun _ => 1) (fun v => if v = 5 then 8 else 5) 10 16 7)
      ∧ (∀ w ∈ ([5, 7] : List Nat), 0 < (fun (_ : Nat) => 1) w →
          neighbourPriority (fun _ => 1) (fun v => if v = 5 then 8 else 5) 10 16 w
            ≤ neighbourPriority (fun _ => 1) (fun v => if v = 5 then 8 else 5) 10 16 7) :=
  (C4_neighbour_selection [5, 7] (fun _ => 1) (fun v => if v = 5 then 8 else 5) 10 16).2
    7 (by decide)

/-! ### Empty input guard (claim C9) -/

/-- C9: with `index_count = 0` or `vertex_count = 0`, both optimizers return
immediately and the destination buffer is returned untouched (the embedding
returns the destination value itself, with no write performed). -/
theorem C9_empty_guard (destination indices : List Nat) (vertex_count cache_size : Nat)
    (h : indices.length = 0 ∨ vertex_count = 0) :
    meshopt_optimizeVertexCache destination indices vertex_count = destination
    ∧ meshopt_optimizeVertexCacheFifo destination indices vertex_count cache_size
        = destination := by
  constructor
  · rw [meshopt_optimizeVertexCache, if_pos h]
  · rw [meshopt_optimizeVertexCacheFifo, if_pos h]

/-- Witness for C9 on an empty index buffer and on a zero vertex count. -/
theorem C9_empty_guard_witness :
    (meshopt_optimizeVertexCache [4, 5, 6] [] 7 = [4, 5, 6]
      ∧ meshopt_optimizeVertexCacheFifo [4, 5, 6] [] 7 16 = [4, 5, 6])
    ∧ (meshopt_optimizeVertexCache [4, 5, 6] [0, 1, 2] 0 = [4, 5, 6]
      ∧ meshopt_optimizeVertexCacheFifo [4, 5, 6] [0, 1, 2] 0 16 = [4, 5, 6]) :=
  ⟨C9_empty_guard [4, 5, 6] [] 7 16 (by decide),
   C9_empty_guard [4, 5, 6] [0, 1, 2] 0 16 (by decide)⟩

/-! ## Ground facts for the loop invariants -/

theorem triMult_eq_count (indices : List Nat) (v i : Nat) :
    triMult indices v i = (tripleOf indices i).count v := rfl

theorem incidentList_count (indices : List Nat) (h3 : 3 ∣ indices.length) (v x : Nat) :
    (incidentList indices v).count x
      = if x < indices.length / 3 then triMult indices v x else 0 := by
  rw [incidentList, segAt_count]

theorem mem_incidentList {indices : List Nat} {v t : Nat} :
    t ∈ incidentList indices v
      ↔ t < indices.length / 3 ∧ 0 < (tripleOf indices t).count v := by
  rw [← List.count_pos_iff_mem, incidentList, segAt_count]
  by_cases h : t < indices.length / 3
  · rw [if_pos h, triMult_eq_count]
    constructor
    · exact fun hp => ⟨h, hp⟩
    · exact fun hp => hp.2
  · rw [if_neg h]
    constructor
    · intro hp; omega
    · intro hp; exact absurd hp.1 h

theorem cache_table_nonneg : ∀ n : Nat, 0 ≤ vertex_score_table_cache.getD n 0 := by
  intro n
  rcases Nat.lt_or_ge n vertex_score_table_cache.length with h | h
  · have hl : vertex_score_table_cache.length = 17 := rfl
    rw [hl] at h
    interval_cases n <;> decide
  · rw [List.getD_eq_default _ _ h]

theorem live_table_lb : ∀ n : Nat, 1 ≤ n → n ≤ 8 →
    56 ≤ vertex_score_table_live.getD n 0 := by
  intro n h1 h2
  interval_cases n <;> decide

/-- Lower bound of a vertex score with a bounded cache position and at least
one live triangle: at least 0.056 (the smallest live table entry). -/
theorem vertexScore_lb (p : ℤ) (hp1 : -1 ≤ p) (hp2 : p < 16) (lt : Nat) (hl : 1 ≤ lt) :
    56 ≤ vertexScore p lt := by
  rw [vertexScore]
  have hc := cache_table_nonneg (1 + p).toNat
  have hlive : 56 ≤ vertex_score_table_live.getD
      (if lt < max_valence then lt else max_valence) 0 := by
    apply live_table_lb
    · split_ifs <;> simp [max_valence] at * <;> omega
    · split_ifs with h
      · simp [max_valence] at h
        omega
      · simp [max_valence]
  omega

/-- Replacing the slots equal to `v` in a three-term score sum. -/
theorem sum3_update (g : Nat → ℤ) (score : ℤ) (v s1 s2 s3 : Nat) :
    g s1 + g s2 + g s3 + (([s1, s2, s3] : List Nat).count v : ℤ) * (score - g v)
      = (if s1 = v then score else g s1) + (if s2 = v then score else g s2)
        + (if s3 = v then score else g s3) := by
  rw [count_triple v s1 s2 s3]
  by_cases h1 : s1 = v
  · rw [if_pos h1, if_pos h1.symm]
    by_cases h2 : s2 = v
    · rw [if_pos h2, if_pos h2.symm]
      by_cases h3 : s3 = v
      · rw [if_pos h3, if_pos h3.symm, h1, h2, h3]; push_cast; ring
      · rw [if_neg h3, if_neg (fun hh => h3 hh.symm), h1, h2]; push_cast; ring
    · rw [if_neg h2, if_neg (fun hh => h2 hh.symm)]
      by_cases h3 : s3 = v
      · rw [if_pos h3, if_pos h3.symm, h1, h3]; push_cast; ring
      · rw [if_neg h3, if_neg (fun hh => h3 hh.symm), h1]; push_cast; ring
  · rw [if_neg h1, if_neg (fun hh => h1 hh.symm)]
    by_cases h2 : s2 = v
    · rw [if_pos h2, if_pos h2.symm]
      by_cases h3 : s3 = v
      · rw [if_pos h3, if_pos h3.symm, h2, h3]; push_cast; ring
      · rw [if_neg h3, if_neg (fun hh => h3 hh.symm), h2]; push_cast; ring
    · rw [if_neg h2, if_neg (fun hh => h2 hh.symm)]
      by_cases h3 : s3 = v
      · rw [if_pos h3, if_pos h3.symm, h3]; push_cast; ring
      · rw [if_neg h3, if_neg (fun hh => h3 hh.symm)]; push_cast; ring

theorem liveDec3_eq (live : Nat → Nat) (a b c v : Nat) :
    liveDec3 live a b c v = live v - ([a, b, c] : List Nat).count v := by
  have hcnt := count_triple v a b c
  simp only [liveDec3, Function.update_apply]
  by_cases h1 : v = a <;> by_cases h2 : v = b <;> by_cases h3 : v = c <;>
    simp only [h1, h2, h3, if_pos, if_neg, if_true, if_false] <;>
    simp_all <;> omega

theorem count_triple_first (a b c : Nat) :
    (if a = b then 1 else 0) + (if a = c then 1 else 0) + 1
      ≤ ([a, b, c] : List Nat).count a := by
  rw [count_triple, if_pos rfl]
  omega

theorem count_triple_second (a b c : Nat) :
    (if b = a then 1 else 0) + (if b = c then 1 else 0) + 1
      ≤ ([a, b, c] : List Nat).count b := by
  have := count_triple b a b c
  rw [this]
  rw [if_pos rfl]
  omega

theorem count_triple_third (a b c : Nat) :
    (if c = a then 1 else 0) + (if c = b then 1 else 0) + 1
      ≤ ([a, b, c] : List Nat).count c := by
  have := count_triple c a b c
  rw [this]
  rw [if_pos rfl]
  omega

/-- Behaviour of the three swap-with-last removals when the count of `t` in
each slice equals the multiplicity of the slice vertex in the triangle: all
copies of `t` disappear, nothing else changes, and each slice shrinks by its
multiplicity. -/
theorem adjRemove3_spec (adj : Nat → List Nat) (a b c t : Nat)
    (h : ∀ v, (adj v).count t = ([a, b, c] : List Nat).count v) (v : Nat) :
    ((adjRemove3 adj a b c t) v).count t = 0
    ∧ (∀ x, x ≠ t → ((adjRemove3 adj a b c t) v).count x = (adj v).count x)
    ∧ ((adjRemove3 adj a b c t) v).length
        = (adj v).length - ([a, b, c] : List Nat).count v := by
  have hma : 0 < (adj a).count t := by
    rw [h a]
    have := count_triple_first a b c
    omega
  have hta : t ∈ adj a := List.count_pos_iff_mem.mp hma
  set adj1 := Function.update adj a (swapRemove (adj a) t) with hadj1
  have h1c : ∀ w, (adj1 w).count t
      = (adj w).count t - (if w = a then 1 else 0) := by
    intro w
    by_cases hw : w = a
    · subst hw
      rw [hadj1, Function.update_same, swapRemove_count hta, if_pos rfl, if_pos rfl]
    · rw [hadj1, Function.update_noteq hw, if_neg hw]
      omega
  have h1x : ∀ w x, x ≠ t → (adj1 w).count x = (adj w).count x := by
    intro w x hx
    by_cases hw : w = a
    · subst hw
      rw [hadj1, Function.update_same, swapRemove_count hta, if_neg hx]
      omega
    · rw [hadj1, Function.update_noteq hw]
  have h1l : ∀ w, (adj1 w).length = (adj w).length - (if w = a then 1 else 0) := by
    intro w
    by_cases hw : w = a
    · subst hw
      rw [hadj1, Function.update_same, swapRemove_length hta, if_pos rfl]
    · rw [hadj1, Function.update_noteq hw, if_neg hw]
      omega
  have hmb : 0 < (adj1 b).count t := by
    rw [h1c b, h b]
    have := count_triple_second a b c
    omega
  have htb : t ∈ adj1 b := List.count_pos_iff_mem.mp hmb
  set adj2 := Function.update adj1 b (swapRemove (adj1 b) t) with hadj2
  have h2c : ∀ w, (adj2 w).count t
      = (adj w).count t - (if w = a then 1 else 0) - (if w = b then 1 else 0) := by
    intro w
    by_cases hw : w = b
    · subst hw
      rw [hadj2, Function.update_same, swapRemove_count htb, if_pos rfl, if_pos rfl, h1c w]
    · rw [hadj2, Function.update_noteq hw, if_neg hw, h1c w]
      omega
  have h2x : ∀ w x, x ≠ t → (adj2 w).count x = (adj w).count x := by
    intro w x hx
    by_cases hw : w = b
    · subst hw
      rw [hadj2, Function.update_same, swapRemove_count htb, if_neg hx, h1x w x hx]
      omega
    · rw [hadj2, Function.update_noteq hw, h1x w x hx]
  have h2l : ∀ w, (adj2 w).length
      = (adj w).length - (if w = a then 1 else 0) - (if w = b then 1 else 0) := by
    intro w
    by_cases hw : w = b
    · subst hw
      rw [hadj2, Function.update_same, swapRemove_length htb, if_pos rfl, h1l w]
    · rw [hadj2, Function.update_noteq hw, if_neg hw, h1l w]
      omega
  have hmc : 0 < (adj2 c).count t := by
    rw [h2c c, h c]
    have := count_triple_third a b c
    omega
  have htc : t ∈ adj2 c := List.count_pos_iff_mem.mp hmc
  have hadj3 : adjRemove3 adj a b c t
      = Function.update adj2 c (swapRemove (adj2 c) t) := by
    rw [adjRemove3, hadj2, hadj1]
  have h3c : ∀ w, ((adjRemove3 adj a b c t) w).count t
      = (adj w).count t - (if w = a then 1 else 0) - (if w = b then 1 else 0)
        - (if w = c then 1 else 0) := by
    intro w
    by_cases hw : w = c
    · subst hw
      rw [hadj3, Function.update_same, swapRemove_count htc, if_pos rfl, if_pos rfl, h2c w]
    · rw [hadj3, Function.update_noteq hw, if_neg hw, h2c w]
      omega
  have h3x : ∀ w x, x ≠ t → ((adjRemove3 adj a b c t) w).count x = (adj w).count x := by
    intro w x hx
    by_cases hw : w = c
    · subst hw
      rw [hadj3, Function.update_same, swapRemove_count htc, if_neg hx, h2x w x hx]
      omega
    · rw [hadj3, Function.update_noteq hw, h2x w x hx]
  have h3l : ∀ w, ((adjRemove3 adj a b c t) w).length
      = (adj w).length - (if w = a then 1 else 0) - (if w = b then 1 else 0)
        - (if w = c then 1 else 0) := by
    intro w
    by_cases hw : w = c
    · subst hw
      rw [hadj3, Function.update_same, swapRemove_length htc, if_pos rfl, h2l w]
    · rw [hadj3, Function.update_noteq hw, if_neg hw, h2l w]
      omega
  refine ⟨?_, h3x v, ?_⟩
  · rw [h3c v, h v, count_triple]
    omega
  · rw [h3l v]
    have hle : (adj v).count t ≤ (adj v).length := List.count_le_length t (adj v)
    rw [h v] at hle
    rw [count_triple] at hle ⊢
    omega

/-! ## Sweep invariants of the greedy optimizer -/

/-- Behaviour of the inner sweep fold over one adjacency slice: vertex scores
are untouched, each triangle score grows by its multiplicity in the slice
times the delta, one event per slice element is recorded, and when every slice
element is unemitted and all intermediate scores are positive the assertion
bit stays set and every new event is positive. -/
theorem sweepTriangles_spec (emitted : Nat → Bool) (diff : ℤ) :
    ∀ (tris : List Nat) (acc : SweepAcc),
      (sweepTriangles emitted diff acc tris).vertex_scores = acc.vertex_scores
      ∧ (∀ x, (sweepTriangles emitted diff acc tris).triangle_scores x
          = acc.triangle_scores x + (tris.count x : ℤ) * diff)
      ∧ ((sweepTriangles emitted diff acc tris).events.length
          = acc.events.length + tris.length)
      ∧ ((∀ x ∈ tris, emitted x = false)
          → (∀ x ∈ tris, ∀ m : ℕ, 1 ≤ m → m ≤ tris.count x →
              0 < acc.triangle_scores x + (m : ℤ) * diff)
          → acc.ok = true
          → (sweepTriangles emitted diff acc tris).ok = true
            ∧ ∀ ev ∈ (sweepTriangles emitted diff acc tris).events,
                ev ∈ acc.events ∨ (ev.1 ∈ tris ∧ 0 < ev.2)) := by
  intro tris
  induction tris with
  | nil =>
    intro acc
    refine ⟨rfl, ?_, rfl, ?_⟩
    · intro x; simp [sweepTriangles]
    · intro _ _ hok
      exact ⟨hok, fun ev hev => Or.inl hev⟩
  | cons x rest ih =>
    intro acc
    have hstep : sweepTriangles emitted diff acc (x :: rest)
        = sweepTriangles emitted diff
            { vertex_scores := acc.vertex_scores,
              triangle_scores := Function.update acc.triangle_scores x
                (acc.triangle_scores x + diff),
              events := acc.events ++ [(x, acc.triangle_scores x + diff)],
              ok := acc.ok && !emitted x && decide (0 < acc.triangle_scores x + diff) }
            rest := rfl
    set acc1 : SweepAcc :=
      { vertex_scores := acc.vertex_scores,
        triangle_scores := Function.update acc.triangle_scores x
          (acc.triangle_scores x + diff),
        events := acc.events ++ [(x, acc.triangle_scores x + diff)],
        ok := acc.ok && !emitted x && decide (0 < acc.triangle_scores x + diff) }
      with hacc1
    obtain ⟨ihv, iht, ihe, ihok⟩ := ih acc1
    refine ⟨by rw [hstep]; exact ihv, ?_, ?_, ?_⟩
    · intro y
      rw [hstep, iht y]
      show Function.update acc.triangle_scores x (acc.triangle_scores x + diff) y
          + (rest.count y : ℤ) * diff
        = acc.triangle_scores y + ((x :: rest).count y : ℤ) * diff
      rw [Function.update_apply, List.count_cons]
      by_cases hyx : y = x
      · rw [if_pos hyx, if_pos (by exact beq_iff_eq.mpr hyx.symm), hyx]
        push_cast
        ring
      · rw [if_neg hyx, if_neg (by simpa using Ne.symm hyx)]
        push_cast
        ring
    · rw [hstep, ihe]
      show (acc.events ++ [(x, acc.triangle_scores x + diff)]).length + rest.length
        = acc.events.length + (x :: rest).length
      rw [List.length_append]
      simp
      omega
    · intro hpend hpos hok
      have hx1 : (1 : ℕ) ≤ (x :: rest).count x := by
        rw [List.count_cons, if_pos (by exact beq_iff_eq.mpr rfl)]
        omega
      have hposx : 0 < acc.triangle_scores x + diff := by
        have := hpos x (by simp) 1 le_rfl hx1
        simpa using this
      have hok1 : acc1.ok = true := by
        rw [hacc1]
        simp [hok, hpend x (by simp), hposx]
      have hpend1 : ∀ y ∈ rest, emitted y = false :=
        fun y hy => hpend y (by simp [hy])
      have hpos1 : ∀ y ∈ rest, ∀ m : ℕ, 1 ≤ m → m ≤ rest.count y →
          0 < acc1.triangle_scores y + (m : ℤ) * diff := by
        intro y hy m hm1 hm2
        rw [hacc1]
        show 0 < Function.update acc.triangle_scores x (acc.triangle_scores x + diff) y
            + (m : ℤ) * diff
        rw [Function.update_apply]
        by_cases hyx : y = x
        · rw [if_pos hyx]
          have hcnt : m + 1 ≤ (x :: rest).count y := by
            rw [List.count_cons, if_pos (by exact beq_iff_eq.mpr hyx.symm)]
            omega
          have := hpos y (by simp [hy]) (m + 1) (by omega) hcnt
          have hcast : ((m + 1 : ℕ) : ℤ) * diff = diff + (m : ℤ) * diff := by
            push_cast
            ring
          rw [hcast] at this
          have hgoal : acc.triangle_scores y + (diff + (m : ℤ) * diff)
              = acc.triangle_scores x + diff + (m : ℤ) * diff := by
            rw [hyx]
            ring
          rw [← hgoal]
          exact this
        · rw [if_neg hyx]
          have hcnt : m ≤ (x :: rest).count y := by
            rw [List.count_cons, if_neg (by simpa using Ne.symm hyx)]
            omega
          exact hpos y (by simp [hy]) m hm1 hcnt
      obtain ⟨hokr, hevr⟩ := ihok hpend1 hpos1 hok1
      refine ⟨by rw [hstep]; exact hokr, ?_⟩
      intro ev hev
      rw [hstep] at hev
      rcases hevr ev hev with hin | ⟨hmem, hposn⟩
      · rw [hacc1] at hin
        rcases List.mem_append.mp hin with hin2 | hin2
        · exact Or.inl hin2
        · right
          have hev2 : ev = (x, acc.triangle_scores x + diff) := by simpa using hin2
          subst hev2
          exact ⟨by simp, hposx⟩
      · exact Or.inr ⟨by simp [hmem], hposn⟩

/-- Invariant of the sweep accumulator: every vertex score is a table score
for a bounded cache position and a live count at least the current one; every
pending triangle score is the sum of the current vertex scores of its three
slots; the assertion bit is set; every recorded event is a positive score of
a pending triangle. -/
structure SweepInv (indices : List Nat) (adj : Nat → List Nat) (live : Nat → Nat)
    (emitted : Nat → Bool) (acc : SweepAcc) : Prop where
  vs : ∀ v, ∃ p : ℤ, ∃ lt : Nat, -1 ≤ p ∧ p < 16 ∧ live v ≤ lt
      ∧ acc.vertex_scores v = vertexScore p lt
  ts : ∀ x, x < indices.length / 3 → emitted x = false →
      acc.triangle_scores x
        = acc.vertex_scores (idxAt indices (3 * x))
          + acc.vertex_scores (idxAt indices (3 * x + 1))
          + acc.vertex_scores (idxAt indices (3 * x + 2))
  okk : acc.ok = true
  evs : ∀ ev ∈ acc.events, 0 < ev.2 ∧ emitted ev.1 = false
      ∧ ev.1 < indices.length / 3

/-- Adjacency context of the sweep: the slices list exactly the pending
incidences, and the live counts are the slice lengths. -/
structure AdjCtx (indices : List Nat) (adj : Nat → List Nat) (live : Nat → Nat)
    (emitted : Nat → Bool) : Prop where
  h3 : 3 ∣ indices.length
  cnt : ∀ v x, (adj v).count x
      = if emitted x = true then 0 else (incidentList indices v).count x
  len : ∀ v, live v = (adj v).length

theorem AdjCtx.mem_adj {indices : List Nat} {adj : Nat → List Nat} {live : Nat → Nat}
    {emitted : Nat → Bool} (ctx : AdjCtx indices adj live emitted) {v x : Nat}
    (hx : x ∈ adj v) :
    emitted x = false ∧ x < indices.length / 3 ∧ 0 < (tripleOf indices x).count v := by
  have hc : 0 < (adj v).count x := List.count_pos_iff_mem.mpr hx
  rw [ctx.cnt v x] at hc
  by_cases he : emitted x = true
  · rw [if_pos he] at hc; omega
  · rw [if_neg he] at hc
    have hmem : x ∈ incidentList indices v := List.count_pos_iff_mem.mp hc
    have := mem_incidentList.mp hmem
    exact ⟨by simpa using he, this.1, this.2⟩

theorem AdjCtx.count_pending {indices : List Nat} {adj : Nat → List Nat}
    {live : Nat → Nat} {emitted : Nat → Bool}
    (ctx : AdjCtx indices adj live emitted) {x : Nat} (hx : x < indices.length / 3)
    (hp : emitted x = false) (v : Nat) :
    (adj v).count x = (tripleOf indices x).count v := by
  rw [ctx.cnt v x, if_neg (by simp [hp]), incidentList_count indices ctx.h3,
    if_pos hx, triMult_eq_count]

theorem AdjCtx.slot_live {indices : List Nat} {adj : Nat → List Nat}
    {live : Nat → Nat} {emitted : Nat → Bool}
    (ctx : AdjCtx indices adj live emitted) {x w : Nat} (hx : x < indices.length / 3)
    (hp : emitted x = false) (hw : 0 < (tripleOf indices x).count w) :
    0 < live w := by
  have hc : 0 < (adj w).count x := by
    rw [ctx.count_pending hx hp w]
    exact hw
  have := List.count_le_length x (adj w)
  rw [ctx.len w]
  omega

/-- One swept vertex preserves the sweep invariant and adds one event per
element of its adjacency slice. -/
theorem sweepVertex_inv {indices : List Nat} {adj : Nat → List Nat} {live : Nat → Nat}
    {emitted : Nat → Bool} (ctx : AdjCtx indices adj live emitted)
    (acc : SweepAcc) (hinv : SweepInv indices adj live emitted acc)
    (p : ℤ) (hp1 : -1 ≤ p) (hp2 : p < 16) (v : Nat) :
    SweepInv indices adj live emitted (sweepVertex adj live emitted acc p v)
    ∧ (sweepVertex adj live emitted acc p v).events.length
        = acc.events.length + (adj v).length := by
  rw [sweepVertex]
  set score := vertexScore p (live v) with hscore
  set diff := score - acc.vertex_scores v with hdiff
  set acc1 : SweepAcc :=
    { acc with vertex_scores := Function.update acc.vertex_scores v score } with hacc1
  obtain ⟨hsv, hst, hse, hsok⟩ := sweepTriangles_spec emitted diff (adj v) acc1
  -- the score of every slot vertex of a pending adjacent triangle is at least 56
  have hslot : ∀ x, x < indices.length / 3 → emitted x = false →
      ∀ w, 0 < (tripleOf indices x).count w → 56 ≤ acc.vertex_scores w := by
    intro x hxF hxp w hw
    obtain ⟨q, lt, hq1, hq2, hlt, heq⟩ := hinv.vs w
    rw [heq]
    have hlw : 0 < live w := ctx.slot_live hxF hxp hw
    exact vertexScore_lb q hq1 hq2 lt (by omega)
  have hscore_lb : 0 < live v → 56 ≤ score := by
    intro hlv
    rw [hscore]
    exact vertexScore_lb p hp1 hp2 (live v) (by omega)
  have hts1 : acc1.triangle_scores = acc.triangle_scores := rfl
  have hev1 : acc1.events = acc.events := rfl
  have hok1 : acc1.ok = acc.ok := rfl
  have hvs1 : acc1.vertex_scores = Function.update acc.vertex_scores v score := rfl
  -- the three slot scores of any pending triangle below the face count
  have hslots : ∀ x, x < indices.length / 3 → emitted x = false →
      56 ≤ acc.vertex_scores (idxAt indices (3 * x))
      ∧ 56 ≤ acc.vertex_scores (idxAt indices (3 * x + 1))
      ∧ 56 ≤ acc.vertex_scores (idxAt indices (3 * x + 2)) := by
    intro x hxF hxp
    refine ⟨hslot x hxF hxp _ ?_, hslot x hxF hxp _ ?_, hslot x hxF hxp _ ?_⟩
    · have := count_triple_first (idxAt indices (3 * x)) (idxAt indices (3 * x + 1))
        (idxAt indices (3 * x + 2))
      show 0 < ([idxAt indices (3 * x), idxAt indices (3 * x + 1),
        idxAt indices (3 * x + 2)] : List Nat).count (idxAt indices (3 * x))
      omega
    · have := count_triple_second (idxAt indices (3 * x)) (idxAt indices (3 * x + 1))
        (idxAt indices (3 * x + 2))
      show 0 < ([idxAt indices (3 * x), idxAt indices (3 * x + 1),
        idxAt indices (3 * x + 2)] : List Nat).count (idxAt indices (3 * x + 1))
      omega
    · have := count_triple_third (idxAt indices (3 * x)) (idxAt indices (3 * x + 1))
        (idxAt indices (3 * x + 2))
      show 0 < ([idxAt indices (3 * x), idxAt indices (3 * x + 1),
        idxAt indices (3 * x + 2)] : List Nat).count (idxAt indices (3 * x + 2))
      omega
  -- the updated sum of a pending triangle rewritten through sum3_update
  have hnewSum : ∀ x, x < indices.length / 3 → emitted x = false →
      acc.triangle_scores x + ((tripleOf indices x).count v : ℤ) * diff
        = (if idxAt indices (3 * x) = v then score
            else acc.vertex_scores (idxAt indices (3 * x)))
          + (if idxAt indices (3 * x + 1) = v then score
            else acc.vertex_scores (idxAt indices (3 * x + 1)))
          + (if idxAt indices (3 * x + 2) = v then score
            else acc.vertex_scores (idxAt indices (3 * x + 2))) := by
    intro x hxF hxp
    rw [hinv.ts x hxF hxp, hdiff]
    exact sum3_update acc.vertex_scores score v _ _ _
  have hnewSum_lb : ∀ x, x < indices.length / 3 → emitted x = false →
      0 < live v →
      168 ≤ acc.triangle_scores x + ((tripleOf indices x).count v : ℤ) * diff := by
    intro x hxF hxp hlv
    rw [hnewSum x hxF hxp]
    obtain ⟨hb1, hb2, hb3⟩ := hslots x hxF hxp
    have hsc := hscore_lb hlv
    split_ifs <;> omega
  have holdSum_lb : ∀ x, x < indices.length / 3 → emitted x = false →
      168 ≤ acc.triangle_scores x := by
    intro x hxF hxp
    rw [hinv.ts x hxF hxp]
    obtain ⟨hb1, hb2, hb3⟩ := hslots x hxF hxp
    omega
  -- positivity of all intermediate triangle scores of the slice of v
  have hpos : ∀ x ∈ adj v, ∀ m : ℕ, 1 ≤ m → m ≤ (adj v).count x →
      0 < acc1.triangle_scores x + (m : ℤ) * diff := by
    intro x hxadj m hm1 hm2
    obtain ⟨hxp, hxF, hxv⟩ := ctx.mem_adj hxadj
    have hcnt : (adj v).count x = (tripleOf indices x).count v :=
      ctx.count_pending hxF hxp v
    have hmult : 0 < (tripleOf indices x).count v := by omega
    have hlv : 0 < live v := ctx.slot_live hxF hxp hmult
    rw [hts1]
    rcases le_or_lt 0 diff with hd | hd
    · have h1 : (0 : ℤ) ≤ (m : ℤ) * diff :=
        mul_nonneg (Int.natCast_nonneg m) hd
      have h2 := holdSum_lb x hxF hxp
      omega
    · have hmle : (m : ℤ) ≤ ((tripleOf indices x).count v : ℤ) := by
        have : m ≤ (tripleOf indices x).count v := by omega
        exact_mod_cast this
      have h1 : ((tripleOf indices x).count v : ℤ) * diff ≤ (m : ℤ) * diff :=
        mul_le_mul_of_nonpos_right hmle (le_of_lt hd)
      have h2 := hnewSum_lb x hxF hxp hlv
      omega
  have hpend : ∀ x ∈ adj v, emitted x = false :=
    fun x hx => (ctx.mem_adj hx).1
  obtain ⟨hokr, hevr⟩ := hsok hpend hpos (by rw [hok1]; exact hinv.okk)
  refine ⟨⟨?_, ?_, hokr, ?_⟩, ?_⟩
  · -- vertex score shape
    intro w
    rw [hsv, hvs1, Function.update_apply]
    by_cases hw : w = v
    · rw [if_pos hw, hscore]
      exact ⟨p, live v, hp1, hp2, by rw [hw], rfl⟩
    · rw [if_neg hw]
      exact hinv.vs w
  · -- pending triangle scores are sums of the new vertex scores
    intro y hyF hyp
    rw [hst y, hts1]
    have hcnt : (adj v).count y = (tripleOf indices y).count v :=
      ctx.count_pending hyF hyp v
    rw [hcnt, hnewSum y hyF hyp, hsv, hvs1]
    rw [Function.update_apply, Function.update_apply, Function.update_apply]
  · -- events are positive pending scores
    intro ev hev
    rcases hevr ev hev with hin | ⟨hmem, hposn⟩
    · rw [hev1] at hin
      exact hinv.evs ev hin
    · obtain ⟨hxp, hxF, _⟩ := ctx.mem_adj hmem
      exact ⟨hposn, hxp, hxF⟩
  · rw [hse, hev1]

/-- The whole sweep preserves the invariant and records one event per pending
incidence of the swept vertices. -/
theorem sweepGo_inv {indices : List Nat} {adj : Nat → List Nat} {live : Nat → Nat}
    {emitted : Nat → Bool} (ctx : AdjCtx indices adj live emitted) :
    ∀ (vs : List Nat) (i : Nat) (acc : SweepAcc),
      SweepInv indices adj live emitted acc →
      SweepInv indices adj live emitted (sweepGo adj live emitted vs i acc)
      ∧ (sweepGo adj live emitted vs i acc).events.length
          = acc.events.length + (vs.map (fun v => (adj v).length)).sum := by
  intro vs
  induction vs with
  | nil =>
    intro i acc h
    exact ⟨h, by simp [sweepGo]⟩
  | cons v rest ih =>
    intro i acc h
    rw [sweepGo]
    have hp1 : (-1 : ℤ) ≤ (if cache_size_greedy ≤ i then -1 else (i : ℤ)) := by
      split_ifs with hi
      · exact le_rfl
      · have := Int.natCast_nonneg i
        omega
    have hp2 : (if cache_size_greedy ≤ i then -1 else (i : ℤ)) < 16 := by
      split_ifs with hi
      · decide
      · rw [cache_size_greedy] at hi
        have : i < 16 := by omega
        exact_mod_cast this
    obtain ⟨h1, he1⟩ := sweepVertex_inv ctx acc h _ hp1 hp2 v
    obtain ⟨h2, he2⟩ := ih (i + 1) _ h1
    refine ⟨h2, ?_⟩
    rw [he2, he1]
    simp
    omega

/-- Full characterization of the input-order triangle fallback scan. -/
theorem getNextTriangleDeadEnd_spec (emitted : Nat → Bool) (face_count : Nat) :
    ∀ (gas input_cursor : Nat), face_count ≤ input_cursor + gas →
      input_cursor ≤ (getNextTriangleDeadEndGo emitted face_count gas input_cursor).2
      ∧ (∀ f, input_cursor ≤ f →
          f < (getNextTriangleDeadEndGo emitted face_count gas input_cursor).2 →
          emitted f = true)
      ∧ (∀ f0, (getNextTriangleDeadEndGo emitted face_count gas input_cursor).1 = some f0 →
          f0 = (getNextTriangleDeadEndGo emitted face_count gas input_cursor).2
          ∧ (getNextTriangleDeadEndGo emitted face_count gas input_cursor).2 < face_count
          ∧ emitted f0 = false)
      ∧ ((getNextTriangleDeadEndGo emitted face_count gas input_cursor).1 = none →
          face_count ≤ (getNextTriangleDeadEndGo emitted face_count gas input_cursor).2) := by
  intro gas
  induction gas with
  | zero =>
    intro cursor hge
    rw [getNextTriangleDeadEndGo]
    refine ⟨le_rfl, ?_, ?_, ?_⟩
    · intro f h1 h2; omega
    · intro f0 h0; simp at h0
    · intro _; omega
  | succ gas ih =>
    intro cursor hge
    rw [getNextTriangleDeadEndGo]
    by_cases hc : cursor < face_count
    · rw [if_pos hc]
      by_cases he : emitted cursor
      · rw [if_pos he]
        obtain ⟨ih1, ih2, ih3, ih4⟩ := ih (cursor + 1) (by omega)
        refine ⟨by omega, ?_, ih3, ih4⟩
        intro f h1 h2
        rcases Nat.eq_or_lt_of_le h1 with h1e | h1l
        · exact h1e ▸ he
        · exact ih2 f (by omega) h2
      · rw [if_neg he]
        refine ⟨le_rfl, ?_, ?_, ?_⟩
        · intro f h1 h2; simp at h2; omega
        · intro f0 h0
          simp at h0
          subst h0
          exact ⟨rfl, hc, by simpa using he⟩
        · intro h0; simp at h0
    · rw [if_neg hc]
      refine ⟨le_rfl, ?_, ?_, ?_⟩
      · intro f h1 h2; simp at h2; omega
      · intro f0 h0; simp at h0
      · intro _; omega

/-- Loop invariant of the greedy optimizer between iterations of the main
emission loop. -/
structure GreedyInv (indices : List Nat) (s : GreedyState) : Prop where
  cnt : ∀ v x, (s.adj v).count x
      = if s.emitted x = true then 0 else (incidentList indices v).count x
  len : ∀ v, s.live v = (s.adj v).length
  nodup : s.output.Nodup
  mem : ∀ x, s.emitted x = true ↔ x ∈ s.output
  lt : ∀ x ∈ s.output, x < indices.length / 3
  vs : ∀ v, ∃ p : ℤ, ∃ lt : Nat, -1 ≤ p ∧ p < 16 ∧ s.live v ≤ lt
      ∧ s.vertex_scores v = vertexScore p lt
  ts : ∀ x, x < indices.length / 3 → s.emitted x = false →
      s.triangle_scores x
        = s.vertex_scores (idxAt indices (3 * x))
          + s.vertex_scores (idxAt indices (3 * x + 1))
          + s.vertex_scores (idxAt indices (3 * x + 2))
  okk : s.ok = true

/-- One iteration of the greedy loop on a pending triangle preserves the loop
invariant, emits exactly that triangle, and produces a next current triangle
that is pending, or certifies that everything is emitted. -/
theorem greedyStep_inv (indices : List Nat) (h3 : 3 ∣ indices.length)
    (s : GreedyState) (t : Nat) (hinv : GreedyInv indices s)
    (htF : t < indices.length / 3) (htp : s.emitted t = false)
    (hcur : ∀ f, f < s.input_cursor → (s.emitted f = true ∨ f = t)) :
    GreedyInv indices (greedyStep indices (indices.length / 3) s t).1
    ∧ (greedyStep indices (indices.length / 3) s t).1.output = s.output ++ [t]
    ∧ (greedyStep indices (indices.length / 3) s t).1.emitted
        = Function.update s.emitted t true
    ∧ (∀ f, f < (greedyStep indices (indices.length / 3) s t).1.input_cursor →
        ((greedyStep indices (indices.length / 3) s t).1.emitted f = true
          ∨ (greedyStep indices (indices.length / 3) s t).2 = some f))
    ∧ (∀ t2, (greedyStep indices (indices.length / 3) s t).2 = some t2 →
        t2 < indices.length / 3
        ∧ (greedyStep indices (indices.length / 3) s t).1.emitted t2 = false)
    ∧ ((greedyStep indices (indices.length / 3) s t).2 = none →
        ∀ f, f < indices.length / 3 →
          (greedyStep indices (indices.length / 3) s t).1.emitted f = true) := by
  set F := indices.length / 3 with hF
  set a := idxAt indices (3 * t) with ha
  set b := idxAt indices (3 * t + 1) with hb
  set c := idxAt indices (3 * t + 2) with hc
  have htriple : tripleOf indices t = [a, b, c] := rfl
  have hcnt_t : ∀ v, (s.adj v).count t = ([a, b, c] : List Nat).count v := by
    intro v
    rw [hinv.cnt v t, if_neg (by simp [htp]), incidentList_count indices h3,
      if_pos htF, triMult_eq_count, htriple]
  set E := Function.update s.emitted t true with hE
  have hEt : E t = true := by rw [hE, Function.update_same]
  have hEother : ∀ x, x ≠ t → E x = s.emitted x := by
    intro x hx
    rw [hE, Function.update_noteq hx]
  have hEmono : ∀ f, s.emitted f = true → E f = true := by
    intro f hf
    by_cases hft : f = t
    · subst hft; exact hEt
    · rw [hEother f hft]; exact hf
  set L := liveDec3 s.live a b c with hL
  set Ad := adjRemove3 s.adj a b c t with hAd
  have hrem := fun v => adjRemove3_spec s.adj a b c t hcnt_t v
  have ctx : AdjCtx indices Ad L E := by
    refine ⟨h3, ?_, ?_⟩
    · intro v x
      by_cases hx : x = t
      · subst hx
        rw [(hrem v).1, if_pos hEt]
      · rw [(hrem v).2.1 x hx, hinv.cnt v x, hEother x hx]
    · intro v
      rw [hL, liveDec3_eq, hinv.len v, hAd, (hrem v).2.2]
  set T0 := Function.update s.triangle_scores t 0 with hT0
  set acc0 : SweepAcc :=
    { vertex_scores := s.vertex_scores, triangle_scores := T0, events := [], ok := true }
    with hacc0
  have hinv0 : SweepInv indices Ad L E acc0 := by
    refine ⟨?_, ?_, rfl, ?_⟩
    · intro v
      obtain ⟨p, lt, h1, h2, h3l, h4⟩ := hinv.vs v
      refine ⟨p, lt, h1, h2, ?_, h4⟩
      have := liveDec3_eq s.live a b c v
      rw [hL]
      omega
    · intro x hxF hxp
      have hxt : x ≠ t := by
        intro hxe
        rw [hxe, hEt] at hxp
        simp at hxp
      show T0 x = _
      rw [hT0, Function.update_noteq hxt]
      exact hinv.ts x hxF (by rw [← hEother x hxt]; exact hxp)
    · intro ev hev
      simp [hacc0] at hev
  set CN := a :: b :: c :: s.cache.filter (fun x => !(x == a) && !(x == b) && !(x == c))
    with hCN
  obtain ⟨hswInv, hswLen⟩ := sweepGo_inv ctx CN 0 acc0 hinv0
  set SW := sweepGo Ad L E CN 0 acc0 with hSW
  set B := (selectBest SW.events).1 with hB
  have hevents_pos : ∀ ev ∈ SW.events, 0 < ev.2 := fun ev h => (hswInv.evs ev h).1
  have hsome : ∀ t2, B = some t2 → t2 < F ∧ E t2 = false := by
    intro t2 hbt
    rcases selectFold_spec SW.events (none, 0) with ⟨hres, _⟩ | ⟨k, hk, hres, _, _, _⟩
    · rw [hB, selectBest, hres] at hbt
      simp at hbt
    · rw [hB, selectBest, hres] at hbt
      simp only [Option.some_inj] at hbt
      obtain ⟨_, hp, hFk⟩ := hswInv.evs (SW.events[k]) (List.getElem_mem hk)
      rw [← hbt]
      exact ⟨hFk, hp⟩
  have hnone_iff : B = none ↔ SW.events = [] := by
    constructor
    · intro hbn
      rcases selectFold_spec SW.events (none, 0) with ⟨_, hle⟩ | ⟨k, hk, hres, _, _, _⟩
      · cases hev : SW.events with
        | nil => rfl
        | cons e rest =>
          have h0 : 0 < SW.events.length := by rw [hev]; simp
          have h1 := hle 0 h0
          have h2 := hevents_pos (SW.events[0]) (List.getElem_mem h0)
          simp only at h1
          omega
      · rw [hB, selectBest, hres] at hbn
        simp at hbn
    · intro hen
      rw [hB, selectBest, hen]
      rfl
  have hempty_iff : SW.events = [] ↔ ∀ v ∈ CN, Ad v = [] := by
    have hlen0 : acc0.events.length = 0 := rfl
    constructor
    · intro he v hv
      have h0 : SW.events.length = 0 := by rw [he]; rfl
      rw [hswLen, hlen0] at h0
      have hsum : ((CN.map fun v => (Ad v).length).sum) = 0 := by omega
      have hz : (Ad v).length = 0 := by
        have hmem : (Ad v).length ∈ CN.map fun v => (Ad v).length :=
          List.mem_map_of_mem _ hv
        exact List.sum_eq_zero_iff.mp hsum _ hmem
      exact List.length_eq_zero.mp hz
    · intro hall
      have hsum : ((CN.map fun v => (Ad v).length).sum) = 0 := by
        apply List.sum_eq_zero_iff.mpr
        intro x hx
        obtain ⟨v, hv, hvx⟩ := List.mem_map.mp hx
        rw [← hvx, hall v hv]
        rfl
      have h0 : SW.events.length = 0 := by rw [hswLen, hlen0, hsum]
      exact List.length_eq_zero.mp h0
  have hprop_iff : (∀ v ∈ CN, Ad v = [])
      ↔ (∀ v ∈ CN, ∀ f ∈ List.range F, E f = true ∨ v ∉ tripleOf indices f) := by
    constructor
    · intro hall v hv f hf
      by_cases hef : E f = true
      · exact Or.inl hef
      · right
        intro hvf
        have hfF : f < F := List.mem_range.mp hf
        have hcount : 0 < (Ad v).count f := by
          rw [ctx.count_pending hfF (by simpa using hef) v]
          exact List.count_pos_iff_mem.mpr hvf
        rw [hall v hv] at hcount
        simp at hcount
    · intro hall v hv
      by_cases hne : Ad v = []
      · exact hne
      · exfalso
        obtain ⟨x, hx⟩ := List.exists_mem_of_ne_nil (Ad v) hne
        obtain ⟨hxp, hxF, hxv⟩ := ctx.mem_adj hx
        rcases hall v hv x (List.mem_range.mpr hxF) with h1 | h1
        · rw [hxp] at h1; simp at h1
        · exact h1 (List.count_pos_iff_mem.mp hxv)
  have hOKbit : (B.isNone == decide (∀ v ∈ CN, ∀ f ∈ List.range F,
      E f = true ∨ v ∉ tripleOf indices f)) = true := by
    cases hb : B with
    | none =>
      have hp := hprop_iff.mp (hempty_iff.mp (hnone_iff.mp hb))
      rw [decide_eq_true hp]
      rfl
    | some t2 =>
      have hnp : ¬ (∀ v ∈ CN, ∀ f ∈ List.range F, E f = true ∨ v ∉ tripleOf indices f) := by
        intro hp
        have hn := hnone_iff.mpr (hempty_iff.mpr (hprop_iff.mpr hp))
        rw [hb] at hn
        simp at hn
      rw [decide_eq_false hnp]
      rfl
  -- the state component of the step, written out
  have hstate : greedyStepState indices F s t
      = { adj := Ad, live := L, emitted := E,
          vertex_scores := SW.vertex_scores, triangle_scores := SW.triangle_scores,
          cache := CN.take
            (if cache_size_greedy < CN.length then cache_size_greedy else CN.length),
          input_cursor := s.input_cursor, output := s.output ++ [t],
          ok := s.ok && (SW.ok && (B.isNone == decide (∀ v ∈ CN, ∀ f ∈ List.range F,
            E f = true ∨ v ∉ tripleOf indices f))) } := rfl
  have hnodup : (s.output ++ [t]).Nodup := by
    rw [List.nodup_append]
    refine ⟨hinv.nodup, by simp, ?_⟩
    intro x hx hxt
    simp at hxt
    subst hxt
    have := (hinv.mem x).mpr hx
    rw [htp] at this
    simp at this
  have hmem : ∀ x, E x = true ↔ x ∈ s.output ++ [t] := by
    intro x
    by_cases hxt : x = t
    · subst hxt
      rw [hEt]
      simp
    · rw [hEother x hxt, List.mem_append]
      constructor
      · intro hh; exact Or.inl ((hinv.mem x).mp hh)
      · intro hh
        rcases hh with hh | hh
        · exact (hinv.mem x).mpr hh
        · simp at hh; exact absurd hh hxt
  have hlt : ∀ x ∈ s.output ++ [t], x < F := by
    intro x hx
    rcases List.mem_append.mp hx with hx | hx
    · exact hinv.lt x hx
    · simp at hx; subst hx; exact htF
  have hokk : (s.ok && (SW.ok && (B.isNone == decide (∀ v ∈ CN, ∀ f ∈ List.range F,
      E f = true ∨ v ∉ tripleOf indices f)))) = true := by
    rw [hinv.okk, hswInv.okk, hOKbit]
    rfl
  have hgoalInv : ∀ cur : Nat,
      GreedyInv indices
        { adj := Ad, live := L, emitted := E,
          vertex_scores := SW.vertex_scores, triangle_scores := SW.triangle_scores,
          cache := CN.take
            (if cache_size_greedy < CN.length then cache_size_greedy else CN.length),
          input_cursor := cur, output := s.output ++ [t],
          ok := s.ok && (SW.ok && (B.isNone == decide (∀ v ∈ CN, ∀ f ∈ List.range F,
            E f = true ∨ v ∉ tripleOf indices f))) } := by
    intro cur
    exact ⟨ctx.cnt, ctx.len, hnodup, hmem, hlt, hswInv.vs, hswInv.ts, hokk⟩
  have hspec := getNextTriangleDeadEnd_spec E F (F - s.input_cursor) s.input_cursor
    (by omega)
  have hndeq : getNextTriangleDeadEnd E F s.input_cursor
      = getNextTriangleDeadEndGo E F (F - s.input_cursor) s.input_cursor := rfl
  rw [← hndeq] at hspec
  obtain ⟨hnd1, hnd2, hnd3, hnd4⟩ := hspec
  have hEbelow : ∀ f, f < s.input_cursor → E f = true := by
    intro f hf
    rcases hcur f hf with hh | hh
    · exact hEmono f hh
    · subst hh; exact hEt
  cases hb : B with
  | some t2 =>
    have hscr : (selectBest (greedySweep indices s t).events).1 = some t2 := hb
    have hr : greedyStep indices F s t = (greedyStepState indices F s t, some t2) := by
      rw [greedyStep, hscr]
    rw [hr, hstate]
    refine ⟨hgoalInv _, rfl, rfl, ?_, ?_, ?_⟩
    · intro f hf
      exact Or.inl (hEbelow f hf)
    · intro t2x ht2x
      simp only [Option.some_inj] at ht2x
      obtain ⟨h1, h2⟩ := hsome t2 hb
      rw [← ht2x]
      exact ⟨h1, h2⟩
    · intro hn
      simp at hn
  | none =>
    have hscr : (selectBest (greedySweep indices s t).events).1 = none := hb
    have hr : greedyStep indices F s t
        = ({ greedyStepState indices F s t with
             input_cursor := (getNextTriangleDeadEnd E F s.input_cursor).2 },
           (getNextTriangleDeadEnd E F s.input_cursor).1) := by
      rw [greedyStep, hscr]
    rw [hr, hstate]
    refine ⟨hgoalInv _, rfl, rfl, ?_, ?_, ?_⟩
    · intro f hf
      left
      rcases Nat.lt_or_ge f s.input_cursor with hfc | hfc
      · exact hEbelow f hfc
      · exact hnd2 f hfc hf
    · intro t2x ht2x
      obtain ⟨he1, he2, he3⟩ := hnd3 t2x ht2x
      refine ⟨by omega, he3⟩
    · intro hn f hfF
      have hcge := hnd4 hn
      rcases Nat.lt_or_ge f s.input_cursor with hfc | hfc
      · exact hEbelow f hfc
      · exact hnd2 f hfc (by omega)

/-- Emitting one pending triangle decreases the number of pending triangles
below the face count by exactly one. -/
theorem pending_filter_update (t : Nat) (E : Nat → Bool) :
    ∀ F : Nat, t < F → E t = false →
    ((List.range F).filter (fun f => ! Function.update E t true f)).length + 1
      = ((List.range F).filter (fun f => ! E f)).length := by
  intro F
  induction F with
  | zero => intro h; omega
  | succ n ih =>
    intro htF hEt
    rw [List.range_succ, List.filter_append, List.filter_append,
      List.length_append, List.length_append]
    by_cases htn : t = n
    · subst htn
      have h1 : (List.filter (fun f => ! Function.update E t true f) [t]).length = 0 := by
        simp [Function.update_same]
      have h2 : (List.filter (fun f => ! E f) [t]).length = 1 := by
        simp [hEt]
      have h3 : List.filter (fun f => ! Function.update E t true f) (List.range t)
          = List.filter (fun f => ! E f) (List.range t) := by
        apply List.filter_congr
        intro x hx
        have hxt : x ≠ t := by
          have := List.mem_range.mp hx
          omega
        rw [Function.update_noteq hxt]
      rw [h1, h2, h3]
    · have hnn : (n : Nat) ≠ t := fun hh => htn hh.symm
      have h1 : List.filter (fun f => ! Function.update E t true f) [n]
          = List.filter (fun f => ! E f) [n] := by
        apply List.filter_congr
        intro x hx
        simp at hx
        subst hx
        rw [Function.update_noteq hnn]
      have h2 := ih (by omega) hEt
      rw [h1]
      omega

/-- Fuel-indexed master lemma of the greedy emission loop: if the invariant
holds, the current triangle is pending (or everything is already emitted), the
cursor condition holds, and the fuel covers the pending count, then the loop
ends in an invariant state with every triangle emitted. -/
theorem greedyLoop_master (indices : List Nat) (h3 : 3 ∣ indices.length) :
    ∀ fuel (s : GreedyState) (cur : Option Nat),
      GreedyInv indices s →
      (∀ t, cur = some t → t < indices.length / 3 ∧ s.emitted t = false) →
      (cur = none → ∀ f, f < indices.length / 3 → s.emitted f = true) →
      (∀ f, f < s.input_cursor → (s.emitted f = true ∨ cur = some f)) →
      ((List.range (indices.length / 3)).filter (fun f => ! s.emitted f)).length ≤ fuel →
      GreedyInv indices (greedyLoop indices (indices.length / 3) fuel s cur)
      ∧ (∀ f, f < indices.length / 3 →
          (greedyLoop indices (indices.length / 3) fuel s cur).emitted f = true) := by
  intro fuel
  induction fuel with
  | zero =>
    intro s cur hinv hsome hnone hcur hle
    cases cur with
    | none => exact ⟨hinv, hnone rfl⟩
    | some t =>
      exfalso
      obtain ⟨htF, htp⟩ := hsome t rfl
      have hmem : t ∈ (List.range (indices.length / 3)).filter (fun f => ! s.emitted f) := by
        rw [List.mem_filter]
        exact ⟨List.mem_range.mpr htF, by rw [htp]; rfl⟩
      have hpos := List.length_pos_of_mem hmem
      omega
  | succ fuel ih =>
    intro s cur hinv hsome hnone hcur hle
    cases cur with
    | none => exact ⟨hinv, hnone rfl⟩
    | some t =>
      obtain ⟨htF, htp⟩ := hsome t rfl
      have hcur' : ∀ f, f < s.input_cursor → (s.emitted f = true ∨ f = t) := by
        intro f hf
        rcases hcur f hf with hh | hh
        · exact Or.inl hh
        · exact Or.inr (Option.some_inj.mp hh).symm
      obtain ⟨hinv2, hout2, hemit2, hcur2, hsome2, hnone2⟩ :=
        greedyStep_inv indices h3 s t hinv htF htp hcur'
      have hle2 : ((List.range (indices.length / 3)).filter
          (fun f => ! (greedyStep indices (indices.length / 3) s t).1.emitted f)).length
          ≤ fuel := by
        have hstep := pending_filter_update t s.emitted (indices.length / 3) htF htp
        simp only [hemit2]
        omega
      exact ih (greedyStep indices (indices.length / 3) s t).1
        (greedyStep indices (indices.length / 3) s t).2 hinv2 hsome2 hnone2 hcur2 hle2

/-- The greedy optimizer on a nonempty well-formed mesh ends in an invariant
state that has emitted every triangle. -/
theorem greedyRun_complete (indices : List Nat) (h3 : 3 ∣ indices.length)
    (hne : indices ≠ []) :
    GreedyInv indices (greedyRun indices)
    ∧ (∀ f, f < indices.length / 3 → (greedyRun indices).emitted f = true) := by
  have hlen3 : 3 ≤ indices.length := by
    obtain ⟨k, hk⟩ := h3
    have : indices.length ≠ 0 := fun hh => hne (List.length_eq_zero.mp hh)
    omega
  have hF : 0 < indices.length / 3 := by omega
  have hinit : GreedyInv indices
      { adj := adjacencyAt indices, live := triangleCounts indices,
        emitted := fun _ => false,
        vertex_scores := fun v => vertexScore (-1) (triangleCounts indices v),
        triangle_scores := fun t =>
          vertexScore (-1) (triangleCounts indices (idxAt indices (3 * t)))
            + vertexScore (-1) (triangleCounts indices (idxAt indices (3 * t + 1)))
            + vertexScore (-1) (triangleCounts indices (idxAt indices (3 * t + 2))),
        cache := [], input_cursor := 1, output := [], ok := true } := by
    refine ⟨?_, ?_, List.nodup_nil, ?_, ?_, ?_, ?_, rfl⟩
    · intro v x
      have h := adjacencyAt_eq indices h3 v
      simp [h]
    · intro v
      show triangleCounts indices v = (adjacencyAt indices v).length
      rw [adjacencyAt_eq indices h3 v, incidentList_length indices h3 v]
    · intro x
      simp
    · intro x hx
      simp at hx
    · intro v
      exact ⟨-1, triangleCounts indices v, by omega, by omega, le_rfl, rfl⟩
    · intro x hxF hxp
      rfl
  have hmaster := greedyLoop_master indices h3 (indices.length / 3) _ (some 0) hinit
    (by
      intro t ht
      simp only [Option.some_inj] at ht
      subst ht
      exact ⟨hF, rfl⟩)
    (by intro hh; simp at hh)
    (by
      intro f hf
      have hf1 : f < 1 := hf
      have : f = 0 := by omega
      subst this
      exact Or.inr rfl)
    (by
      rw [List.filter_length_eq_length.mpr (by intro x hx; rfl), List.length_range])
  exact hmaster

/-- The greedy optimizer emits every triangle exactly once: its output is a
permutation of the list of triangle numbers. -/
theorem greedyRun_perm (indices : List Nat) (h3 : 3 ∣ indices.length)
    (hne : indices ≠ []) :
    List.Perm (greedyRun indices).output (List.range (indices.length / 3)) := by
  obtain ⟨hinv, hall⟩ := greedyRun_complete indices h3 hne
  rw [List.perm_ext_iff_of_nodup hinv.nodup (List.nodup_range _)]
  intro x
  constructor
  · intro hx
    exact List.mem_range.mpr (hinv.lt x hx)
  · intro hx
    exact (hinv.mem x).mp (hall x (List.mem_range.mp hx))

/-- The output length of the greedy loop equals the number of emitted
triangles (used for the destination-length argument). -/
theorem greedyRun_output_length (indices : List Nat) (h3 : 3 ∣ indices.length)
    (hne : indices ≠ []) :
    (greedyRun indices).output.length = indices.length / 3 := by
  rw [(greedyRun_perm indices h3 hne).length_eq, List.length_range]

/-! ### Termination and permutation of the FIFO optimizer -/

/-- The number of triangles not yet emitted (the termination measure of the
outer FIFO loop). -/
def pendingCount (indices : List Nat) (emitted : Nat → Bool) : Nat :=
  ((List.range (indices.length / 3)).filter (fun f => ! emitted f)).length

/-- Emitting a pending triangle removes exactly its occurrences from any
pending filter. -/
theorem pending_filter_count (t : Nat) (E : Nat → Bool) (hEt : E t = false) :
    ∀ l : List Nat,
      (l.filter (fun x => ! Function.update E t true x)).length + l.count t
        = (l.filter (fun x => ! E x)).length := by
  intro l
  induction l with
  | nil => rfl
  | cons x rest ih =>
    rw [List.count_cons]
    by_cases hx : x = t
    · subst hx
      rw [List.filter_cons, List.filter_cons]
      have h1 : (! Function.update E x true x) = false := by
        rw [Function.update_same]
        rfl
      have h2 : (! E x) = true := by rw [hEt]; rfl
      rw [h1, h2]
      simp only [if_neg Bool.false_ne_true, if_pos rfl, List.length_cons, beq_self_eq_true,
        if_pos]
      omega
    · rw [List.filter_cons, List.filter_cons]
      have h1 : Function.update E t true x = E x := Function.update_noteq hx _ _
      rw [h1]
      have h2 : (x == t) = false := beq_eq_false_iff_ne.mpr hx
      rw [h2]
      cases hEx : E x with
      | false =>
        simp only [hEx, Bool.not_false, if_pos rfl, if_neg Bool.false_ne_true,
          if_true, eq_self_iff_true, List.length_cons]
        omega
      | true =>
        simp only [hEx, Bool.not_true, if_neg Bool.false_ne_true]
        omega

/-- Loop invariant of the FIFO optimizer: the live count of every vertex is
the number of its pending incident triangles, and the emission order is a
duplicate-free list of triangle numbers matching the emitted flags. -/
structure FifoInv (indices : List Nat) (s : FifoState) : Prop where
  liv : ∀ v, s.live v
      = ((incidentList indices v).filter (fun t => ! s.emitted t)).length
  nodup : s.output.Nodup
  mem : ∀ x, s.emitted x = true ↔ x ∈ s.output
  lt : ∀ x ∈ s.output, x < indices.length / 3

/-- One fifoEmit on a pending triangle: invariant preserved, flag set, cursor
untouched, live counts only decrease, pending count down by one. -/
theorem fifoEmit_spec (indices : List Nat) (h3 : 3 ∣ indices.length) (cs : Nat)
    (s : FifoState) (tr : Nat) (hinv : FifoInv indices s)
    (htrF : tr < indices.length / 3) (htrp : s.emitted tr = false) :
    FifoInv indices (fifoEmit indices cs s tr)
    ∧ (fifoEmit indices cs s tr).emitted = Function.update s.emitted tr true
    ∧ (fifoEmit indices cs s tr).input_cursor = s.input_cursor
    ∧ (∀ u, (fifoEmit indices cs s tr).live u ≤ s.live u)
    ∧ pendingCount indices (fifoEmit indices cs s tr).emitted + 1
        = pendingCount indices s.emitted := by
  set a := idxAt indices (3 * tr) with ha
  set b := idxAt indices (3 * tr + 1) with hb
  set c := idxAt indices (3 * tr + 2) with hc
  have htriple : tripleOf indices tr = [a, b, c] := rfl
  have hstep : fifoEmit indices cs s tr
      = { live := liveDec3 s.live a b c,
          cache_timestamps := (fifoEmit indices cs s tr).cache_timestamps,
          dead_end := s.dead_end ++ [a, b, c],
          emitted := Function.update s.emitted tr true,
          timestamp := (fifoEmit indices cs s tr).timestamp,
          input_cursor := s.input_cursor, output := s.output ++ [tr] } := by
    rw [fifoEmit, if_neg (by simp [htrp])]
  have hcount : ∀ v, (incidentList indices v).count tr = ([a, b, c] : List Nat).count v := by
    intro v
    rw [incidentList_count indices h3 v tr, if_pos htrF, triMult_eq_count, htriple]
  have hliv : ∀ v, liveDec3 s.live a b c v
      = ((incidentList indices v).filter
          (fun t => ! Function.update s.emitted tr true t)).length := by
    intro v
    have h1 := pending_filter_count tr s.emitted htrp (incidentList indices v)
    have h2 := hinv.liv v
    have h3' := hcount v
    rw [liveDec3_eq]
    omega
  have hPC := pending_filter_update tr s.emitted (indices.length / 3) htrF htrp
  refine ⟨?_, ?_, ?_, ?_, ?_⟩
  · refine ⟨?_, ?_, ?_, ?_⟩
    · intro v
      rw [hstep]
      exact hliv v
    · rw [hstep]
      show (s.output ++ [tr]).Nodup
      rw [List.nodup_append]
      refine ⟨hinv.nodup, by simp, ?_⟩
      intro x hx hxt
      simp at hxt
      subst hxt
      have := (hinv.mem x).mpr hx
      rw [htrp] at this
      simp at this
    · intro x
      rw [hstep]
      show Function.update s.emitted tr true x = true ↔ x ∈ s.output ++ [tr]
      by_cases hxt : x = tr
      · subst hxt
        rw [Function.update_same]
        simp
      · rw [Function.update_noteq hxt, List.mem_append]
        constructor
        · intro hh; exact Or.inl ((hinv.mem x).mp hh)
        · intro hh
          rcases hh with hh | hh
          · exact (hinv.mem x).mpr hh
          · simp at hh; exact absurd hh hxt
    · intro x hx
      rw [hstep] at hx
      rcases List.mem_append.mp hx with hx | hx
      · exact hinv.lt x hx
      · simp at hx; subst hx; exact htrF
  · rw [hstep]
  · rw [hstep]
  · intro u
    rw [hstep]
    show liveDec3 s.live a b c u ≤ s.live u
    rw [liveDec3_eq]
    omega
  · rw [hstep]
    show pendingCount indices (Function.update s.emitted tr true) + 1
      = pendingCount indices s.emitted
    rw [pendingCount, pendingCount]
    exact hPC

/-- The inner emission fold over a triangle slice: invariant preserved, flags
only grow, every slice triangle ends up emitted, cursor untouched, live counts
only decrease, and the pending count drops strictly when the slice holds a
pending triangle. -/
theorem fifoFold_spec (indices : List Nat) (h3 : 3 ∣ indices.length) (cs : Nat) :
    ∀ (tris : List Nat) (s : FifoState), FifoInv indices s →
      (∀ tr ∈ tris, tr < indices.length / 3) →
      FifoInv indices (tris.foldl (fifoEmit indices cs) s)
      ∧ (∀ f, s.emitted f = true → (tris.foldl (fifoEmit indices cs) s).emitted f = true)
      ∧ (∀ tr ∈ tris, (tris.foldl (fifoEmit indices cs) s).emitted tr = true)
      ∧ (tris.foldl (fifoEmit indices cs) s).input_cursor = s.input_cursor
      ∧ (∀ u, (tris.foldl (fifoEmit indices cs) s).live u ≤ s.live u)
      ∧ pendingCount indices (tris.foldl (fifoEmit indices cs) s).emitted
          ≤ pendingCount indices s.emitted
      ∧ ((∃ tr ∈ tris, s.emitted tr = false) →
          pendingCount indices (tris.foldl (fifoEmit indices cs) s).emitted
            < pendingCount indices s.emitted) := by
  intro tris
  induction tris with
  | nil =>
    intro s hinv htris
    refine ⟨hinv, fun f hf => hf, ?_, rfl, fun u => le_rfl, le_rfl, ?_⟩
    · intro tr htr; simp at htr
    · intro h; simp at h
  | cons tr rest ih =>
    intro s hinv htris
    rw [List.foldl_cons]
    by_cases htrp : s.emitted tr = true
    · have hsame : fifoEmit indices cs s tr = s := by
        rw [fifoEmit, if_pos htrp]
      rw [hsame]
      obtain ⟨i1, i2, i3, i4, i5, i6, i7⟩ :=
        ih s hinv (fun x hx => htris x (by simp [hx]))
      refine ⟨i1, i2, ?_, i4, i5, i6, ?_⟩
      · intro x hx
        rcases List.mem_cons.mp hx with hx | hx
        · rw [hx]; exact i2 tr htrp
        · exact i3 x hx
      · intro hex
        obtain ⟨x, hx, hxp⟩ := hex
        rcases List.mem_cons.mp hx with hx | hx
        · subst hx
          rw [htrp] at hxp
          simp at hxp
        · exact i7 ⟨x, hx, hxp⟩
    · have htrp' : s.emitted tr = false := by
        cases h : s.emitted tr
        · rfl
        · exact absurd h htrp
      obtain ⟨e1, e2, e3, e4, e5⟩ := fifoEmit_spec indices h3 cs s tr hinv
        (htris tr (by simp)) htrp'
      obtain ⟨i1, i2, i3, i4, i5, i6, i7⟩ :=
        ih (fifoEmit indices cs s tr) e1 (fun x hx => htris x (by simp [hx]))
      refine ⟨i1, ?_, ?_, ?_, ?_, by omega, fun _ => by omega⟩
      · intro f hf
        apply i2
        rw [e2]
        by_cases hft : f = tr
        · subst hft; rw [Function.update_same]
        · rw [Function.update_noteq hft]; exact hf
      · intro x hx
        rcases List.mem_cons.mp hx with hx | hx
        · subst hx
          apply i2
          rw [e2, Function.update_same]
        · exact i3 x hx
      · rw [i4, e3]
      · intro u
        exact le_trans (i5 u) (e4 u)

/-- The dead-end pop (source lines 89-95): a returned vertex is live. -/
theorem popLive_some (live : Nat → Nat) :
    ∀ l v, (popLive live l).1 = some v → 0 < live v := by
  intro l
  induction l with
  | nil => intro v h; simp [popLive] at h
  | cons x rest ih =>
    intro v h
    rw [popLive] at h
    by_cases hx : 0 < live x
    · rw [if_pos hx] at h
      simp at h
      subst h
      exact hx
    · rw [if_neg hx] at h
      exact ih v h

/-- The dead-end pop: an empty answer means no popped entry was live. -/
theorem popLive_none (live : Nat → Nat) :
    ∀ l, (popLive live l).1 = none → ∀ u ∈ l, live u = 0 := by
  intro l
  induction l with
  | nil => intro _ u hu; simp at hu
  | cons x rest ih =>
    intro h u hu
    rw [popLive] at h
    by_cases hx : 0 < live x
    · rw [if_pos hx] at h
      simp at h
    · rw [if_neg hx] at h
      rcases List.mem_cons.mp hu with hu | hu
      · subst hu; omega
      · exact ih h u hu

/-- The input-order vertex scan (source lines 98-104): the cursor only moves
forward over dead vertices; a returned vertex is live and sits at the final
cursor; an empty answer means every vertex from the cursor on is dead. -/
theorem vertexScanGo_spec (live : Nat → Nat) (V : Nat) :
    ∀ gas cursor, V ≤ cursor + gas →
      cursor ≤ (vertexScanGo live V gas cursor).2
      ∧ (∀ u, cursor ≤ u → u < (vertexScanGo live V gas cursor).2 → live u = 0)
      ∧ (∀ v, (vertexScanGo live V gas cursor).1 = some v →
          0 < live v ∧ v = (vertexScanGo live V gas cursor).2)
      ∧ ((vertexScanGo live V gas cursor).1 = none →
          ∀ u, cursor ≤ u → u < V → live u = 0) := by
  intro gas
  induction gas with
  | zero =>
    intro cursor hge
    rw [vertexScanGo]
    refine ⟨le_rfl, ?_, ?_, ?_⟩
    · intro u h1 h2; omega
    · intro v h; simp at h
    · intro _ u h1 h2; omega
  | succ gas ih =>
    intro cursor hge
    rw [vertexScanGo]
    by_cases hc : cursor < V
    · rw [if_pos hc]
      by_cases hl : 0 < live cursor
      · rw [if_pos hl]
        refine ⟨le_rfl, ?_, ?_, ?_⟩
        · intro u h1 h2; simp at h2; omega
        · intro v h
          simp at h
          subst h
          exact ⟨hl, rfl⟩
        · intro h; simp at h
      · rw [if_neg hl]
        obtain ⟨ih1, ih2, ih3, ih4⟩ := ih (cursor + 1) (by omega)
        refine ⟨by omega, ?_, ih3, ?_⟩
        · intro u h1 h2
          rcases Nat.eq_or_lt_of_le h1 with h1e | h1l
          · rw [← h1e]; omega
          · exact ih2 u (by omega) h2
        · intro h u h1 h2
          rcases Nat.eq_or_lt_of_le h1 with h1e | h1l
          · rw [← h1e]; omega
          · exact ih4 h u (by omega) h2
    · rw [if_neg hc]
      refine ⟨le_rfl, ?_, ?_, ?_⟩
      · intro u h1 h2; simp at h2; omega
      · intro v h; simp at h
      · intro _ u h1 h2; omega

/-- getNextVertexDeadEnd (source lines 86-107): a returned vertex is live; on
an empty answer every vertex from the cursor to vertex_count is dead; the
cursor only moves forward over dead vertices. -/
theorem getNextVertexDeadEnd_spec (dead_end : List Nat) (live : Nat → Nat)
    (V cursor : Nat) :
    (∀ v, (getNextVertexDeadEnd dead_end live V cursor).1 = some v → 0 < live v)
    ∧ cursor ≤ (getNextVertexDeadEnd dead_end live V cursor).2.2
    ∧ (∀ u, cursor ≤ u → u < (getNextVertexDeadEnd dead_end live V cursor).2.2 →
        live u = 0)
    ∧ ((getNextVertexDeadEnd dead_end live V cursor).1 = none →
        ∀ u, cursor ≤ u → u < V → live u = 0) := by
  rw [getNextVertexDeadEnd]
  cases hp : (popLive live dead_end.reverse).1 with
  | some v =>
    refine ⟨?_, le_rfl, ?_, ?_⟩
    · intro w hw
      simp only [Option.some_inj] at hw
      subst hw
      exact popLive_some live dead_end.reverse v hp
    · intro u h1 h2; simp at h2; omega
    · intro h; simp at h
  | none =>
    obtain ⟨s1, s2, s3, s4⟩ := vertexScanGo_spec live V (V - cursor) cursor (by omega)
    exact ⟨fun v hv => (s3 v hv).1, s1, s2, s4⟩

/-- The neighbour selection (source lines 109-138): a returned vertex is
live. -/
theorem getNextVertexNeighbour_some_live (cands : List Nat)
    (live ctimes : Nat → Nat) (ts cs v : Nat)
    (h : getNextVertexNeighbour cands live ctimes ts cs = some v) : 0 < live v := by
  rw [getNextVertexNeighbour] at h
  rcases fifoSelect_spec live ctimes ts cs cands (none, -1) with
    ⟨hres, _⟩ | ⟨k, hk, hres, hlv, _, _, _⟩
  · rw [hres] at h
    simp at h
  · rw [hres] at h
    simp only [Option.some_inj] at h
    subst h
    exact hlv

/-- One outer FIFO iteration: invariant preserved, current vertex fully
emitted, a returned vertex is live, the dead-vertex prefix below the cursor
is preserved, an empty answer certifies that everything is emitted, and the
pending count drops strictly when the current vertex is live. -/
theorem fifoStep_spec (indices : List Nat) (h3 : 3 ∣ indices.length) (V cs : Nat)
    (s : FifoState) (v : Nat) (hinv : FifoInv indices s) :
    FifoInv indices (fifoStep indices (adjacencyAt indices) V cs s v).1
    ∧ (∀ u, (fifoStepEmit indices (adjacencyAt indices) cs s v).live u ≤ s.live u)
    ∧ (fifoStepEmit indices (adjacencyAt indices) cs s v).live v = 0
    ∧ (∀ w, (fifoStep indices (adjacencyAt indices) V cs s v).2 = some w →
        0 < (fifoStep indices (adjacencyAt indices) V cs s v).1.live w)
    ∧ ((∀ u, u < s.input_cursor →
          (fifoStepEmit indices (adjacencyAt indices) cs s v).live u = 0) →
        ∀ u, u < (fifoStep indices (adjacencyAt indices) V cs s v).1.input_cursor →
          (fifoStep indices (adjacencyAt indices) V cs s v).1.live u = 0)
    ∧ ((fifoStep indices (adjacencyAt indices) V cs s v).2 = none →
        (∀ u, u < s.input_cursor →
          (fifoStepEmit indices (adjacencyAt indices) cs s v).live u = 0) →
        (∀ i ∈ indices, i < V) →
        ∀ f, f < indices.length / 3 →
          (fifoStep indices (adjacencyAt indices) V cs s v).1.emitted f = true)
    ∧ pendingCount indices (fifoStep indices (adjacencyAt indices) V cs s v).1.emitted
        ≤ pendingCount indices s.emitted
    ∧ (0 < s.live v →
        pendingCount indices (fifoStep indices (adjacencyAt indices) V cs s v).1.emitted
          < pendingCount indices s.emitted) := by
  have htris : ∀ tr ∈ adjacencyAt indices v, tr < indices.length / 3 := by
    intro tr htr
    rw [adjacencyAt_eq indices h3 v] at htr
    exact (mem_incidentList.mp htr).1
  obtain ⟨i1, i2, i3, i4, i5, i6, i7⟩ :=
    fifoFold_spec indices h3 cs (adjacencyAt indices v) s hinv htris
  have hexists : 0 < s.live v → ∃ tr ∈ adjacencyAt indices v, s.emitted tr = false := by
    intro hl
    rw [hinv.liv v] at hl
    obtain ⟨tr, htr⟩ := List.exists_mem_of_ne_nil
      ((incidentList indices v).filter (fun t => ! s.emitted t))
      (by intro hh; rw [hh] at hl; simp at hl)
    rw [List.mem_filter] at htr
    refine ⟨tr, ?_, ?_⟩
    · rw [adjacencyAt_eq indices h3 v]; exact htr.1
    · simpa using htr.2
  have hlv0 : ((adjacencyAt indices v).foldl (fifoEmit indices cs) s).live v = 0 := by
    rw [i1.liv v]
    have hn : (incidentList indices v).filter
        (fun t => ! ((adjacencyAt indices v).foldl (fifoEmit indices cs) s).emitted t)
          = [] := by
      rw [List.filter_eq_nil_iff]
      intro t ht
      have := i3 t (by rw [adjacencyAt_eq indices h3 v]; exact ht)
      simp [this]
    rw [hn]
    rfl
  have hall_emit : ∀ f, f < indices.length / 3 →
      (∀ u, u < V →
        ((adjacencyAt indices v).foldl (fifoEmit indices cs) s).live u = 0) →
      (∀ i ∈ indices, i < V) →
      ((adjacencyAt indices v).foldl (fifoEmit indices cs) s).emitted f = true := by
    intro f hfF hall hv
    by_contra hf
    have hfp : ((adjacencyAt indices v).foldl (fifoEmit indices cs) s).emitted f
        = false := by
      cases hh : ((adjacencyAt indices v).foldl (fifoEmit indices cs) s).emitted f
      · rfl
      · exact absurd hh hf
    have h3f : 3 * f < indices.length := by
      obtain ⟨k, hk⟩ := h3
      rw [hk] at hfF ⊢
      rw [Nat.mul_div_cancel_left k (by omega)] at hfF
      omega
    have hamem : idxAt indices (3 * f) ∈ indices := by
      rw [idxAt, List.getD_eq_getElem indices 0 h3f]
      exact List.getElem_mem h3f
    have haV : idxAt indices (3 * f) < V := hv _ hamem
    have hfin : f ∈ incidentList indices (idxAt indices (3 * f)) := by
      apply mem_incidentList.mpr
      refine ⟨hfF, ?_⟩
      have := count_triple_first (idxAt indices (3 * f)) (idxAt indices (3 * f + 1))
        (idxAt indices (3 * f + 2))
      have htriple : tripleOf indices f
          = [idxAt indices (3 * f), idxAt indices (3 * f + 1),
             idxAt indices (3 * f + 2)] := rfl
      rw [htriple]
      omega
    have hl0 := hall _ haV
    rw [i1.liv _] at hl0
    have hmemf : f ∈ (incidentList indices (idxAt indices (3 * f))).filter
        (fun t => ! ((adjacencyAt indices v).foldl (fifoEmit indices cs) s).emitted t) := by
      rw [List.mem_filter]
      exact ⟨hfin, by rw [hfp]; rfl⟩
    have := List.length_pos_of_mem hmemf
    omega
  cases hn : fifoStepNeighbour indices (adjacencyAt indices) cs s v with
  | some w =>
    have hr : fifoStep indices (adjacencyAt indices) V cs s v
        = (fifoStepEmit indices (adjacencyAt indices) cs s v, some w) := by
      rw [fifoStep, hn]
    rw [hr]
    refine ⟨i1, i5, hlv0, ?_, ?_, ?_, i6, fun hl => i7 (hexists hl)⟩
    · intro w2 hw2
      simp only [Option.some_inj] at hw2
      subst hw2
      exact getNextVertexNeighbour_some_live _ _ _ _ _ _ hn
    · intro hpre u hu
      have hc : (fifoStepEmit indices (adjacencyAt indices) cs s v).input_cursor
          = s.input_cursor := i4
      rw [hc] at hu
      exact hpre u hu
    · intro hnone
      simp at hnone
  | none =>
    obtain ⟨d1, d2, d3, d4⟩ := getNextVertexDeadEnd_spec
      (fifoStepEmit indices (adjacencyAt indices) cs s v).dead_end
      (fifoStepEmit indices (adjacencyAt indices) cs s v).live V
      (fifoStepEmit indices (adjacencyAt indices) cs s v).input_cursor
    have hr : fifoStep indices (adjacencyAt indices) V cs s v
        = ({ fifoStepEmit indices (adjacencyAt indices) cs s v with
             dead_end := (getNextVertexDeadEnd
               (fifoStepEmit indices (adjacencyAt indices) cs s v).dead_end
               (fifoStepEmit indices (adjacencyAt indices) cs s v).live V
               (fifoStepEmit indices (adjacencyAt indices) cs s v).input_cursor).2.1,
             input_cursor := (getNextVertexDeadEnd
               (fifoStepEmit indices (adjacencyAt indices) cs s v).dead_end
               (fifoStepEmit indices (adjacencyAt indices) cs s v).live V
               (fifoStepEmit indices (adjacencyAt indices) cs s v).input_cursor).2.2 },
           (getNextVertexDeadEnd
             (fifoStepEmit indices (adjacencyAt indices) cs s v).dead_end
             (fifoStepEmit indices (adjacencyAt indices) cs s v).live V
             (fifoStepEmit indices (adjacencyAt indices) cs s v).input_cursor).1) := by
      rw [fifoStep, hn]
    rw [hr]
    have hc : (fifoStepEmit indices (adjacencyAt indices) cs s v).input_cursor
        = s.input_cursor := i4
    refine ⟨⟨i1.liv, i1.nodup, i1.mem, i1.lt⟩, i5, hlv0, ?_, ?_, ?_, i6,
      fun hl => i7 (hexists hl)⟩
    · intro w hw
      exact d1 w hw
    · intro hpre u hu
      rcases Nat.lt_or_ge u s.input_cursor with hus | hus
      · exact hpre u hus
      · exact d3 u (by rw [hc]; exact hus) hu
    · intro hnone hpre hv f hfF
      apply hall_emit f hfF ?_ hv
      intro u huV
      rcases Nat.lt_or_ge u s.input_cursor with hus | hus
      · exact hpre u hus
      · exact d4 hnone u (by rw [hc]; exact hus) huV

/-- A live vertex witnesses a positive pending count. -/
theorem pendingCount_pos_of_live (indices : List Nat) (s : FifoState)
    (hinv : FifoInv indices s) (w : Nat) (hl : 0 < s.live w) :
    0 < pendingCount indices s.emitted := by
  rw [hinv.liv w] at hl
  obtain ⟨tr, htr⟩ := List.exists_mem_of_ne_nil
    ((incidentList indices w).filter (fun t => ! s.emitted t))
    (by intro hh; rw [hh] at hl; simp at hl)
  rw [List.mem_filter] at htr
  have htrF : tr < indices.length / 3 := (mem_incidentList.mp htr.1).1
  have hmem : tr ∈ (List.range (indices.length / 3)).filter (fun f => ! s.emitted f) := by
    rw [List.mem_filter]
    exact ⟨List.mem_range.mpr htrF, htr.2⟩
  exact List.length_pos_of_mem hmem

/-- Fuel-indexed master lemma of the outer FIFO loop: from an invariant state
whose current vertex is live, with the dead prefix below the cursor and fuel
covering the pending count, the loop ends with the sentinel, in an invariant
state with every triangle emitted. -/
theorem fifoLoop_master (indices : List Nat) (h3 : 3 ∣ indices.length) (V cs : Nat)
    (hv : ∀ i ∈ indices, i < V) :
    ∀ fuel (s : FifoState) (cur : Option Nat),
      FifoInv indices s →
      (∀ w, cur = some w → 0 < s.live w) →
      (cur = none → ∀ f, f < indices.length / 3 → s.emitted f = true) →
      (∀ u, u < s.input_cursor → s.live u = 0) →
      pendingCount indices s.emitted ≤ fuel →
      FifoInv indices (fifoLoop indices (adjacencyAt indices) V cs fuel s cur).1
      ∧ (∀ f, f < indices.length / 3 →
          (fifoLoop indices (adjacencyAt indices) V cs fuel s cur).1.emitted f = true)
      ∧ (fifoLoop indices (adjacencyAt indices) V cs fuel s cur).2 = none := by
  intro fuel
  induction fuel with
  | zero =>
    intro s cur hinv hsome hnone hcur hle
    cases cur with
    | none => exact ⟨hinv, hnone rfl, rfl⟩
    | some w =>
      exfalso
      have hpos := pendingCount_pos_of_live indices s hinv w (hsome w rfl)
      omega
  | succ fuel ih =>
    intro s cur hinv hsome hnone hcur hle
    cases cur with
    | none => exact ⟨hinv, hnone rfl, rfl⟩
    | some w =>
      have hlw := hsome w rfl
      obtain ⟨p1, p2, p3, p4, p5, p6, p7, p8⟩ := fifoStep_spec indices h3 V cs s w hinv
      have hpre : ∀ u, u < s.input_cursor →
          (fifoStepEmit indices (adjacencyAt indices) cs s w).live u = 0 := by
        intro u hu
        have h1 := p2 u
        have h2 := hcur u hu
        omega
      exact ih (fifoStep indices (adjacencyAt indices) V cs s w).1
        (fifoStep indices (adjacencyAt indices) V cs s w).2 p1 p4
        (fun hnone2 => p6 hnone2 hpre hv) (p5 hpre) (by have := p8 hlw; omega)

/-- The FIFO optimizer on a nonempty well-formed mesh terminates with the
sentinel in an invariant state that has emitted every triangle: fuel
face_count + 1 always suffices. -/
theorem fifoRun_complete (indices : List Nat) (V cs : Nat) (h3 : 3 ∣ indices.length)
    (hne : indices ≠ []) (hv : ∀ i ∈ indices, i < V) :
    FifoInv indices (fifoRun indices V cs).1
    ∧ (∀ f, f < indices.length / 3 → (fifoRun indices V cs).1.emitted f = true)
    ∧ (fifoRun indices V cs).2 = none := by
  have hinit : FifoInv indices
      { live := triangleCounts indices, cache_timestamps := fun _ => 0,
        dead_end := [], emitted := fun _ => false, timestamp := cs + 1,
        input_cursor := 1, output := [] } := by
    refine ⟨?_, List.nodup_nil, ?_, ?_⟩
    · intro v
      show triangleCounts indices v = _
      rw [List.filter_length_eq_length.mpr (by intro x hx; rfl),
        incidentList_length indices h3 v]
    · intro x
      simp
    · intro x hx
      simp at hx
  set s0 : FifoState :=
    { live := triangleCounts indices, cache_timestamps := fun _ => 0,
      dead_end := [], emitted := fun _ => false, timestamp := cs + 1,
      input_cursor := 1, output := [] } with hs0
  obtain ⟨p1, p2, p3, p4, p5, p6, p7, p8⟩ := fifoStep_spec indices h3 V cs s0 0 hinit
  have hpre0 : ∀ u, u < s0.input_cursor →
      (fifoStepEmit indices (adjacencyAt indices) cs s0 0).live u = 0 := by
    intro u hu
    have hu1 : u < 1 := hu
    have hu0 : u = 0 := by omega
    rw [hu0]
    exact p3
  have hPC0 : pendingCount indices s0.emitted = indices.length / 3 := by
    rw [pendingCount, List.filter_length_eq_length.mpr (by intro x hx; rfl),
      List.length_range]
  have hmaster := fifoLoop_master indices h3 V cs hv (indices.length / 3)
    (fifoStep indices (adjacencyAt indices) V cs s0 0).1
    (fifoStep indices (adjacencyAt indices) V cs s0 0).2 p1 p4
    (fun hnone2 => p6 hnone2 hpre0 hv) (p5 hpre0) (by omega)
  exact hmaster

/-- The FIFO optimizer emits every triangle exactly once: its output is a
permutation of the list of triangle numbers. -/
theorem fifoRun_perm (indices : List Nat) (V cs : Nat) (h3 : 3 ∣ indices.length)
    (hne : indices ≠ []) (hv : ∀ i ∈ indices, i < V) :
    List.Perm (fifoRun indices V cs).1.output (List.range (indices.length / 3)) := by
  obtain ⟨hinv, hall, _⟩ := fifoRun_complete indices V cs h3 hne hv
  rw [List.perm_ext_iff_of_nodup hinv.nodup (List.nodup_range _)]
  intro x
  constructor
  · intro hx
    exact List.mem_range.mpr (hinv.lt x hx)
  · intro hx
    exact (hinv.mem x).mp (hall x (List.mem_range.mp hx))

theorem fifoRun_output_length (indices : List Nat) (V cs : Nat)
    (h3 : 3 ∣ indices.length) (hne : indices ≠ []) (hv : ∀ i ∈ indices, i < V) :
    (fifoRun indices V cs).1.output.length = indices.length / 3 := by
  rw [(fifoRun_perm indices V cs h3 hne hv).length_eq, List.length_range]

/-! ### Length and triangle-permutation invariant of both optimizers
(claim C1) -/

/-- C1: on every input with index count a multiple of 3 and all indices below
vertex_count, both optimizers produce an output of the input's length whose
list of consecutive index triples is a permutation of the input's triangles,
each triple's internal order preserved (the triples are compared as ordered
3-tuples). -/
theorem C1_length_and_triangle_permutation (dest indices : List Nat) (V cs : Nat)
    (h3 : 3 ∣ indices.length) (hv : ∀ i ∈ indices, i < V)
    (hd : dest.length = indices.length) :
    (meshopt_optimizeVertexCache dest indices V).length = indices.length
    ∧ List.Perm (triangles (meshopt_optimizeVertexCache dest indices V))
        (triangles indices)
    ∧ (meshopt_optimizeVertexCacheFifo dest indices V cs).length = indices.length
    ∧ List.Perm (triangles (meshopt_optimizeVertexCacheFifo dest indices V cs))
        (triangles indices) := by
  by_cases hg : indices.length = 0 ∨ V = 0
  · have hnil : indices = [] := by
      rcases hg with h | h
      · exact List.length_eq_zero.mp h
      · cases hi : indices with
        | nil => rfl
        | cons x rest =>
          exfalso
          have := hv x (by rw [hi]; simp)
          omega
    subst hnil
    have hdnil : dest = [] := List.length_eq_zero.mp (by simpa using hd)
    subst hdnil
    rw [meshopt_optimizeVertexCache, meshopt_optimizeVertexCacheFifo,
      if_pos hg, if_pos hg]
    exact ⟨rfl, List.Perm.refl _, rfl, List.Perm.refl _⟩
  · have hne : indices ≠ [] := by
      intro hh
      exact hg (Or.inl (by rw [hh]; rfl))
    have hfull : 3 * (indices.length / 3) = indices.length := Nat.mul_div_cancel' h3
    have houtg := greedyRun_output_length indices h3 hne
    have houtf := fifoRun_output_length indices V cs h3 hne hv
    have hwg := writeTriangles_eq indices dest (greedyRun indices).output
      (by rw [houtg, hd, hfull])
    have hwf := writeTriangles_eq indices dest (fifoRun indices V cs).1.output
      (by rw [houtf, hd, hfull])
    have htr := triangles_eq_map indices h3
    rw [meshopt_optimizeVertexCache, meshopt_optimizeVertexCacheFifo,
      if_neg hg, if_neg hg]
    refine ⟨?_, ?_, ?_, ?_⟩
    · rw [writeTriangles, writeTrianglesFrom_length, hd]
    · rw [hwg, triangles_flatMap_tripleOf, htr]
      exact (greedyRun_perm indices h3 hne).map _
    · rw [writeTriangles, writeTrianglesFrom_length, hd]
    · rw [hwf, triangles_flatMap_tripleOf, htr]
      exact (fifoRun_perm indices V cs h3 hne hv).map _

/-- Witness for C1 on a two-triangle quad. -/
theorem C1_length_and_triangle_permutation_witness :
    (3 ∣ ([0, 1, 2, 2, 1, 3] : List Nat).length)
    ∧ (∀ i ∈ ([0, 1, 2, 2, 1, 3] : List Nat), i < 4)
    ∧ ([9, 9, 9, 9, 9, 9] : List Nat).length = ([0, 1, 2, 2, 1, 3] : List Nat).length
    ∧ ((meshopt_optimizeVertexCache [9, 9, 9, 9, 9, 9] [0, 1, 2, 2, 1, 3] 4).length
          = ([0, 1, 2, 2, 1, 3] : List Nat).length
        ∧ List.Perm
            (triangles (meshopt_optimizeVertexCache [9, 9, 9, 9, 9, 9] [0, 1, 2, 2, 1, 3] 4))
            (triangles [0, 1, 2, 2, 1, 3])
        ∧ (meshopt_optimizeVertexCacheFifo [9, 9, 9, 9, 9, 9] [0, 1, 2, 2, 1, 3] 4 16).length
          = ([0, 1, 2, 2, 1, 3] : List Nat).length
        ∧ List.Perm
            (triangles
              (meshopt_optimizeVertexCacheFifo [9, 9, 9, 9, 9, 9] [0, 1, 2, 2, 1, 3] 4 16))
            (triangles [0, 1, 2, 2, 1, 3])) :=
  ⟨by decide, by decide, by decide,
   C1_length_and_triangle_permutation [9, 9, 9, 9, 9, 9] [0, 1, 2, 2, 1, 3] 4 16
     (by decide) (by decide) (by decide)⟩

/-! ### In-place safety (claim C7) -/

/-- C7: on every valid input, running either optimizer with the destination
aliased to the index buffer yields the same contents as running it with any
separate destination of the right length: the source snapshots the index
buffer before writing (lines 176-183 and 361-368), so the result depends on
the destination only through its length. -/
theorem C7_inplace_safety (dest indices : List Nat) (V cs : Nat)
    (h3 : 3 ∣ indices.length) (hv : ∀ i ∈ indices, i < V)
    (hd : dest.length = indices.length) :
    meshopt_optimizeVertexCache dest indices V
      = meshopt_optimizeVertexCache indices indices V
    ∧ meshopt_optimizeVertexCacheFifo dest indices V cs
      = meshopt_optimizeVertexCacheFifo indices indices V cs := by
  by_cases hg : indices.length = 0 ∨ V = 0
  · have hnil : indices = [] := by
      rcases hg with h | h
      · exact List.length_eq_zero.mp h
      · cases hi : indices with
        | nil => rfl
        | cons x rest =>
          exfalso
          have := hv x (by rw [hi]; simp)
          omega
    subst hnil
    have hdnil : dest = [] := List.length_eq_zero.mp (by simpa using hd)
    subst hdnil
    exact ⟨rfl, rfl⟩
  · have hne : indices ≠ [] := by
      intro hh
      exact hg (Or.inl (by rw [hh]; rfl))
    have hfull : 3 * (indices.length / 3) = indices.length := Nat.mul_div_cancel' h3
    have houtg := greedyRun_output_length indices h3 hne
    have houtf := fifoRun_output_length indices V cs h3 hne hv
    rw [meshopt_optimizeVertexCache, meshopt_optimizeVertexCacheFifo,
      meshopt_optimizeVertexCache, meshopt_optimizeVertexCacheFifo,
      if_neg hg, if_neg hg, if_neg hg, if_neg hg]
    constructor
    · rw [writeTriangles_eq indices dest (greedyRun indices).output
          (by rw [houtg, hd, hfull]),
        writeTriangles_eq indices indices (greedyRun indices).output
          (by rw [houtg, hfull])]
    · rw [writeTriangles_eq indices dest (fifoRun indices V cs).1.output
          (by rw [houtf, hd, hfull]),
        writeTriangles_eq indices indices (fifoRun indices V cs).1.output
          (by rw [houtf, hfull])]

/-- Witness for C7 on a two-triangle quad. -/
theorem C7_inplace_safety_witness :
    (3 ∣ ([0, 1, 2, 2, 1, 3] : List Nat).length)
    ∧ (∀ i ∈ ([0, 1, 2, 2, 1, 3] : List Nat), i < 4)
    ∧ ([9, 9, 9, 9, 9, 9] : List Nat).length = ([0, 1, 2, 2, 1, 3] : List Nat).length
    ∧ (meshopt_optimizeVertexCache [9, 9, 9, 9, 9, 9] [0, 1, 2, 2, 1, 3] 4
          = meshopt_optimizeVertexCache [0, 1, 2, 2, 1, 3] [0, 1, 2, 2, 1, 3] 4
        ∧ meshopt_optimizeVertexCacheFifo [9, 9, 9, 9, 9, 9] [0, 1, 2, 2, 1, 3] 4 16
          = meshopt_optimizeVertexCacheFifo [0, 1, 2, 2, 1, 3] [0, 1, 2, 2, 1, 3] 4 16) :=
  ⟨by decide, by decide, by decide,
   C7_inplace_safety [9, 9, 9, 9, 9, 9] [0, 1, 2, 2, 1, 3] 4 16
     (by decide) (by decide) (by decide)⟩

/-! ### FIFO optimizer at the minimum legal cache size (claim C8) -/

/-- C8: with cache_size = 3, the FIFO optimizer still terminates — the outer
loop reaches the ~0u sentinel within face_count + 1 iterations having emitted
all face_count triangles — and the written output still satisfies the
triangle-permutation invariant. -/
theorem C8_fifo_min_cache_size (dest indices : List Nat) (V : Nat)
    (h3 : 3 ∣ indices.length) (hne : indices ≠ []) (hv : ∀ i ∈ indices, i < V)
    (hd : dest.length = indices.length) :
    (fifoRun indices V 3).2 = none
    ∧ (fifoRun indices V 3).1.output.length = indices.length / 3
    ∧ List.Perm (triangles (meshopt_optimizeVertexCacheFifo dest indices V 3))
        (triangles indices) := by
  have hVne : V ≠ 0 := by
    obtain ⟨x, hx⟩ := List.exists_mem_of_ne_nil indices hne
    have := hv x hx
    omega
  have hg : ¬ (indices.length = 0 ∨ V = 0) := by
    intro hh
    rcases hh with hh | hh
    · exact hne (List.length_eq_zero.mp hh)
    · exact hVne hh
  have hfull : 3 * (indices.length / 3) = indices.length := Nat.mul_div_cancel' h3
  have houtf := fifoRun_output_length indices V 3 h3 hne hv
  refine ⟨(fifoRun_complete indices V 3 h3 hne hv).2.2, houtf, ?_⟩
  rw [meshopt_optimizeVertexCacheFifo, if_neg hg,
    writeTriangles_eq indices dest (fifoRun indices V 3).1.output
      (by rw [houtf, hd, hfull]),
    triangles_flatMap_tripleOf, triangles_eq_map indices h3]
  exact (fifoRun_perm indices V 3 h3 hne hv).map _

/-- Witness for C8 on a two-triangle quad. -/
theorem C8_fifo_min_cache_size_witness :
    (3 ∣ ([0, 1, 2, 2, 1, 3] : List Nat).length)
    ∧ ([0, 1, 2, 2, 1, 3] : List Nat) ≠ []
    ∧ (∀ i ∈ ([0, 1, 2, 2, 1, 3] : List Nat), i < 4)
    ∧ ([9, 9, 9, 9, 9, 9] : List Nat).length = ([0, 1, 2, 2, 1, 3] : List Nat).length
    ∧ ((fifoRun [0, 1, 2, 2, 1, 3] 4 3).2 = none
        ∧ (fifoRun [0, 1, 2, 2, 1, 3] 4 3).1.output.length
          = ([0, 1, 2, 2, 1, 3] : List Nat).length / 3
        ∧ List.Perm
            (triangles (meshopt_optimizeVertexCacheFifo [9, 9, 9, 9, 9, 9] [0, 1, 2, 2, 1, 3] 4 3))
            (triangles [0, 1, 2, 2, 1, 3])) :=
  ⟨by decide, by decide, by decide, by decide,
   C8_fifo_min_cache_size [9, 9, 9, 9, 9, 9] [0, 1, 2, 2, 1, 3] 4
     (by decide) (by decide) (by decide) (by decide)⟩

/-! ### In-loop assertions of the greedy optimizer (claim C10) -/

/-- C10: along the whole greedy run on a valid input the instrumented ok flag
stays true.  The flag conjoins, at every iteration and for every sweep event:
the assertion that the swept triangle is not yet emitted, the assertion that
its maintained score — the previous score plus the propagated delta, kept
equal to the sum of its three vertices' current scores by the invariant — is
strictly positive, and the check that the input-order fallback fires exactly
when no pending triangle is adjacent to any vertex of the updated cache
list. -/
theorem C10_greedy_assertions (indices : List Nat) (h3 : 3 ∣ indices.length)
    (hne : indices ≠ []) :
    (greedyRun indices).ok = true :=
  (greedyRun_complete indices h3 hne).1.okk

/-- Witness for C10 on a two-triangle quad. -/
theorem C10_greedy_assertions_witness :
    (3 ∣ ([0, 1, 2, 2, 1, 3] : List Nat).length)
    ∧ ([0, 1, 2, 2, 1, 3] : List Nat) ≠ []
    ∧ (greedyRun [0, 1, 2, 2, 1, 3]).ok = true :=
  ⟨by decide, by decide, C10_greedy_assertions [0, 1, 2, 2, 1, 3] (by decide) (by decide)⟩

end MeshoptVC
